import Mathlib

/-!
# Calendar-event service: store, service and listing handlers

A shallow embedding of `internal/repository/repository.go`, of
`internal/service/service.go`, of `pkg/errors/errormsg.go`, of the parts of
`internal/model/models.go` they use and of `handleError` and the three listing
handlers of `internal/handler/handler.go`, followed by theorems about them.

Modelling conventions.

* Go's `int` identifiers and counters are integers (`Int`).  The counter
  `nextID` only ever grows by one per `CreateEvent`; the model does not bound
  it, so the statements about identifiers speak of runs that stay within the
  range of `int`.
* `time.Time` is an instant together with the zone offset its `Location` has at
  that instant (see `Time`).  Monotonic clock readings are not modelled, and
  the functions that build a time in a location (`Add`, `Date`, `AddDate`) are
  those of a location with a fixed offset, as UTC.
* `map[int]*model.Event` is an association list with pairwise distinct keys
  (`AList`).  The order of its entry list stands for the order in which a
  `range` loop visits the map, which Go leaves unspecified; a statement about
  a query that holds for every store therefore holds for every visit order.
* A Go `error` produced by `errors.New(msg)` is `some msg`, and `nil` is `none`;
  the errors of the service are values of `Err`.
* The read/write lock makes each operation atomic; operations are modelled as
  functions from the store before the call to the store after it.
* The service is written against the interface `repository.Repository`; its
  model takes the implementation as an argument, and `New` is the in-memory
  one.
* A handler is modelled from the point where its parameters have been parsed;
  its answer is the call of `http.Error` it makes or the slice it encodes.
* Records are values, except in the part on pointers (`Ptr`), where the store
  holds pointers into a heap of records, as the Go map does, to state which
  records callers and store share.
* Concurrent callers of `CreateEvent` are goroutines that take turns statement
  by statement (`Concurrent`); `r.mu` is a lock held by one goroutine at a
  time.
-/

namespace L218

/-! ## `time.Time` -/

/-- A `time.Time` value: the instant `ns`, counted in nanoseconds from
January 1, year 1, 00:00:00 UTC (so that the zero `Time` has `ns = 0`), and
`offset`, the number of seconds east of UTC that the value's `Location` has at
that instant. -/
structure Time where
  ns : Int
  offset : Int
deriving DecidableEq

namespace Time

/-- `t.Before(u)`: the instant of `t` is earlier than the instant of `u`. -/
def Before (t u : Time) : Bool := decide (t.ns < u.ns)

/-- `t.After(u)`: the instant of `t` is later than the instant of `u`. -/
def After (t u : Time) : Bool := decide (u.ns < t.ns)

/-- `t.Equal(u)`: same instant, whatever the locations. -/
def Equal (t u : Time) : Bool := decide (t.ns = u.ns)

/-- `t.Add(d)` for a duration of `d` nanoseconds, in a location whose offset
does not change between the two instants (UTC, a fixed zone): the instant
moves and the offset is kept. -/
def Add (t : Time) (d : Int) : Time := { t with ns := t.ns + d }

/-- Whole days between January 1, year 1 and the calendar day on which `t`
falls in its own location. -/
def days (t : Time) : Int := (t.ns / 1000000000 + t.offset) / 86400

end Time

/-- `isLeap(year)` of package `time`. -/
def isLeap (year : Int) : Bool :=
  year % 4 == 0 && (year % 100 != 0 || year % 400 == 0)

/-- `daysBefore[m]` of package `time`: days in a non-leap year before month
`m + 1` starts. -/
def daysBefore (m : Int) : Int :=
  if m = 0 then 0
  else if m = 1 then 31
  else if m = 2 then 59
  else if m = 3 then 90
  else if m = 4 then 120
  else if m = 5 then 151
  else if m = 6 then 181
  else if m = 7 then 212
  else if m = 8 then 243
  else if m = 9 then 273
  else if m = 10 then 304
  else if m = 11 then 334
  else 365

/-- The year and the zero-based day of that year of day number `d`, the way
`absDate` of package `time` computes them: 400-year, 100-year, 4-year and
1-year cycles are cut off in turn. -/
def yearDay (d : Int) : Int × Int :=
  let n400 := d / 146097
  let d1 := d - 146097 * n400
  let c := d1 / 36524
  let n100 := c - c / 4
  let d2 := d1 - 36524 * n100
  let n4 := d2 / 1461
  let d3 := d2 - 1461 * n4
  let q := d3 / 365
  let n1 := q - q / 4
  (400 * n400 + 100 * n100 + 4 * n4 + n1 + 1, d3 - 365 * n1)

/-- Month (1 to 12) and day of the month of the zero-based day `yday` of
`year`, as in `absDate`. -/
def monthDay (year yday : Int) : Int × Int :=
  if isLeap year && yday == 59 then (2, 29)
  else
    let day := if isLeap year && decide (59 < yday) then yday - 1 else yday
    let month := day / 31
    let fin := daysBefore (month + 1)
    if fin ≤ day then (month + 2, day - fin + 1)
    else (month + 1, day - daysBefore month + 1)

/-- `t.Date()`: year, month and day of the month on which `t` falls, in the
location of `t`. -/
def Time.Date (t : Time) : Int × Int × Int :=
  let yd := yearDay t.days
  let md := monthDay yd.1 yd.2
  (yd.1, md.1, md.2)

/-- The seconds of `t` on the wall clock of its location, counted from
January 1, year 1, 00:00:00 (`t.abs()` up to the choice of the epoch). -/
def Time.abs (t : Time) : Int := t.ns / 1000000000 + t.offset

/-- The nanoseconds of `t` within its second (`t.nsec()`). -/
def Time.nsec (t : Time) : Int := t.ns % 1000000000

/-- `t.Clock()`: hour, minute and second within the day, as in `absClock`. -/
def Time.Clock (t : Time) : Int × Int × Int :=
  let sec := t.abs % 86400
  let hour := sec / 3600
  let sec1 := sec - hour * 3600
  let min := sec1 / 60
  (hour, min, sec1 - min * 60)

/-- `t.Weekday()` as in `absWeekday`, with Sunday = 0 and Monday = 1:
January 1 of year 1 was a Monday. -/
def Time.Weekday (t : Time) : Int := (t.abs + 1 * 86400) % 604800 / 86400

/-- `t.Year()`. -/
def Time.Year (t : Time) : Int := t.Date.1

/-- `t.Month()`. -/
def Time.Month (t : Time) : Int := t.Date.2.1

/-- `norm(hi, lo, base)` of package `time`: the pair with the same value
`hi * base + lo` whose second component lies between 0 and `base - 1`. -/
def norm (hi lo base : Int) : Int × Int :=
  let p : Int × Int :=
    if lo < 0 then
      let n := (-lo - 1) / base + 1
      (hi - n, lo + n * base)
    else (hi, lo)
  if base ≤ p.2 then
    let n := p.2 / base
    (p.1 + n, p.2 - n * base)
  else p

/-- `daysSinceEpoch(year)` of package `time`, counted from January 1 of
year 1: the days before `year` starts, adding up 400-year, 100-year, 4-year
cycles and single years. -/
def daysSinceEpoch (year : Int) : Int :=
  let y := year - 1
  let n400 := y / 400
  let y1 := y - 400 * n400
  let n100 := y1 / 100
  let y2 := y1 - 100 * n100
  let n4 := y2 / 4
  let y3 := y2 - 4 * n4
  146097 * n400 + 36524 * n100 + 1461 * n4 + 365 * y3

/-- `time.Date(year, month, day, hour, min, sec, nsec, loc)` for a location
with the fixed offset `offset`: month, then nanoseconds, seconds, minutes and
hours are normalised, the overflow going into the next unit; the days and the
seconds of the day are added up and the offset is taken off. -/
def Date (year month day hour min sec nsec offset : Int) : Time :=
  let ym := norm year (month - 1) 12
  let year1 := ym.1
  let month1 := ym.2 + 1
  let sn := norm sec nsec 1000000000
  let ms := norm min sn.1 60
  let hm := norm hour ms.1 60
  let dh := norm day hm.1 24
  let d := daysSinceEpoch year1 + daysBefore (month1 - 1) +
    (if isLeap year1 && decide (3 ≤ month1) then 1 else 0) + (dh.1 - 1)
  let abs := d * 86400 + (dh.2 * 3600 + hm.2 * 60 + ms.2)
  { ns := (abs - offset) * 1000000000 + sn.2, offset := offset }

/-- `t.AddDate(years, months, days)`: the date and the clock of `t` are read,
the amounts are added to the date and `Date` builds the result in the
location of `t`. -/
def Time.AddDate (t : Time) (years months days : Int) : Time :=
  let ymd := t.Date
  let hms := t.Clock
  L218.Date (ymd.1 + years) (ymd.2.1 + months) (ymd.2.2 + days) hms.1 hms.2.1 hms.2.2
    t.nsec t.offset

/-! ## `model.Event` and the store -/

/-- The record `model.Event`. -/
structure Event where
  ID : Int
  UserID : Int
  Date : Time
  Text : String
deriving DecidableEq

/-- The struct `MemoryRepository` without its lock: the map from identifier to
stored record and the next identifier to hand out. -/
structure MemoryRepository where
  events : AList (fun _ : Int => Event)
  nextID : Int

/-- `NewMemoryRepository()`: an empty map, and the counter at 1. -/
def NewMemoryRepository : MemoryRepository :=
  { events := ∅, nextID := 1 }

/-- The condition `_, exists := r.events[id]`. -/
def live (r : MemoryRepository) (id : Int) : Bool := (r.events.lookup id).isSome

/-- `CreateEvent(event)`: returns the store after the call, the caller's event
after the call (its `ID` has been overwritten) and the returned error. -/
def CreateEvent (r : MemoryRepository) (event : Event) :
    MemoryRepository × Event × Option String :=
  let event1 : Event := { event with ID := r.nextID }
  let stored : Event :=
    { ID := event1.ID, UserID := event1.UserID, Date := event1.Date, Text := event1.Text }
  ({ events := r.events.insert event1.ID stored, nextID := r.nextID + 1 }, event1, none)

/-- `UpdateEvent(id, event)`: the store after the call and the returned error. -/
def UpdateEvent (r : MemoryRepository) (id : Int) (event : Event) :
    MemoryRepository × Option String :=
  if !(live r id) then (r, some "event not found")
  else
    let stored : Event :=
      { ID := id, UserID := event.UserID, Date := event.Date, Text := event.Text }
    ({ r with events := r.events.insert id stored }, none)

/-- `DeleteEvent(id)`: the store after the call and the returned error. -/
def DeleteEvent (r : MemoryRepository) (id : Int) : MemoryRepository × Option String :=
  if !(live r id) then (r, some "event not found")
  else ({ r with events := r.events.erase id }, none)

/-! ## Queries -/

/-- `isSameDay(date1, date2)`: the two values fall on the same year, month and
day of the month, each read in its own location. -/
def isSameDay (date1 date2 : Time) : Bool :=
  let (y1, m1, d1) := date1.Date
  let (y2, m2, d2) := date2.Date
  y1 == y2 && m1 == m2 && d1 == d2

/-- One step of the inner loop of the insertion sort run by `sort.Slice`:
`x` stands to the right of `left`, whose nearest element comes first, and is
swapped leftwards as long as it is `less` than its left neighbour. -/
def swapLeft {α : Type} (less : α → α → Bool) (x : α) : List α → List α
  | [] => [x]
  | y :: left => if less x y then y :: swapLeft less x left else x :: y :: left

/-- `sort.Slice(s, less)`, modelled by the insertion sort that the standard
library runs on short slices: the elements are taken from left to right and
each is moved into the already sorted part before it (held reversed while the
loop runs). -/
def sortSlice {α : Type} (less : α → α → Bool) (s : List α) : List α :=
  (s.foldl (fun left x => swapLeft less x left) []).reverse

/-- `sortEventsByDate(events)`: `sort.Slice` with
`events[i].Date.Before(events[j].Date)` as the order. -/
def sortEventsByDate (events : List Event) : List Event :=
  sortSlice (fun a b => a.Date.Before b.Date) events

/-- `GetEventDay(date)`: the loop over the map appends the records that fall on
the day of `date`; the slice is then sorted. -/
def GetEventDay (r : MemoryRepository) (date : Time) : List Event × Option String :=
  let events := r.events.entries.foldl
    (fun events kv => if isSameDay kv.2.Date date then events ++ [kv.2] else events) []
  (sortEventsByDate events, none)

/-- `GetEventWeek(startDate, endDate)`: the loop over the map appends the
records whose instant is not before `startDate` and not after `endDate`; the
slice is then sorted. -/
def GetEventWeek (r : MemoryRepository) (startDate endDate : Time) :
    List Event × Option String :=
  let events := r.events.entries.foldl
    (fun events kv =>
      if (kv.2.Date.Equal startDate || kv.2.Date.After startDate) &&
          (kv.2.Date.Equal endDate || kv.2.Date.Before endDate)
      then events ++ [kv.2] else events) []
  (sortEventsByDate events, none)

/-- `GetEventMonth(startDate, endDate)` calls `GetEventWeek`. -/
def GetEventMonth (r : MemoryRepository) (startDate endDate : Time) :
    List Event × Option String :=
  GetEventWeek r startDate endDate

/-! ## Sequences of calls -/

/-- A mutating call on the store. -/
inductive Op where
  | create (event : Event)
  | update (id : Int) (event : Event)
  | delete (id : Int)

/-- The store after one call. -/
def Op.apply (r : MemoryRepository) : Op → MemoryRepository
  | .create event => (CreateEvent r event).1
  | .update id event => (UpdateEvent r id event).1
  | .delete id => (DeleteEvent r id).1

/-- The store after a sequence of calls, made one after another. -/
def run (r : MemoryRepository) (ops : List Op) : MemoryRepository :=
  ops.foldl Op.apply r

/-- The identifiers written into the caller's events by the `CreateEvent` calls
of a sequence, in call order. -/
def assignedIDs (r : MemoryRepository) : List Op → List Int
  | [] => []
  | .create event :: ops =>
      (CreateEvent r event).2.1.ID :: assignedIDs (CreateEvent r event).1 ops
  | op :: ops => assignedIDs (op.apply r) ops

/-- The events of the list passed to `CreateEvent` one after another: what each
call returns (the caller's event after the call, and the error). -/
def createAll (r : MemoryRepository) : List Event → List (Event × Option String)
  | [] => []
  | event :: rest =>
      (CreateEvent r event).2 :: createAll (CreateEvent r event).1 rest

/-- The number of `CreateEvent` calls in a sequence of calls. -/
def creates : List Op → Nat
  | [] => 0
  | .create _ :: ops => creates ops + 1
  | _ :: ops => creates ops

/-- Two stores hold the same map and the same counter; the order in which the
entries are visited may differ. -/
def sameStore (a b : MemoryRepository) : Prop :=
  a.events.entries.Perm b.events.entries ∧ a.nextID = b.nextID

/-- The shape of the stores that calls can produce from a fresh one: every
record sits under its own identifier, the live identifiers lie between 1 and
`nextID`, which is at least 1. -/
def WellFormed (r : MemoryRepository) : Prop :=
  1 ≤ r.nextID ∧
    ∀ (k : Int) (v : Event), r.events.lookup k = some v → v.ID = k ∧ 1 ≤ k ∧ k < r.nextID

/-! ## Error kinds (`pkg/errors/errormsg.go`) -/

/-- The struct `errors.ValidationError`. -/
structure ValidationError where
  Field : String
  Message : String
deriving DecidableEq

/-- The method `Error()` of `ValidationError`. -/
def ValidationError.Error (e : ValidationError) : String :=
  "validation error: " ++ e.Field ++ " - " ++ e.Message

/-- The struct `errors.BusinessError`. -/
structure BusinessError where
  Operation : String
  Message : String
deriving DecidableEq

/-- The method `Error()` of `BusinessError`. -/
def BusinessError.Error (e : BusinessError) : String :=
  "business error: " ++ e.Operation ++ " - " ++ e.Message

/-- The struct `errors.InternalError`. -/
structure InternalError where
  Operation : String
  Message : String
deriving DecidableEq

/-- The method `Error()` of `InternalError`. -/
def InternalError.Error (e : InternalError) : String :=
  "internal error: " ++ e.Operation ++ " - " ++ e.Message

/-- A non-nil Go `error` as the service and the handler see it: a value of one
of the three struct types above, or a value of any other type, of which only
the text is kept. -/
inductive Err where
  | validation (e : ValidationError)
  | business (e : BusinessError)
  | internal (e : InternalError)
  | other (text : String)
deriving DecidableEq

/-! ## The service (`internal/service/service.go`) -/

/-- `t.IsZero()`: the instant is January 1, year 1, 00:00:00 UTC. -/
def Time.IsZero (t : Time) : Bool := decide (t.ns = 0)

/-- The interface `repository.Repository`, implemented over stores of type `σ`.
A call gets the store before it and returns the store after it; the error
is the text of the Go error, or `none` for `nil`. -/
structure Repository (σ : Type) where
  CreateEvent : σ → Event → σ × Event × Option String
  UpdateEvent : σ → Int → Event → σ × Option String
  DeleteEvent : σ → Int → σ × Option String
  GetEventDay : σ → Time → List Event × Option String
  GetEventWeek : σ → Time → Time → List Event × Option String
  GetEventMonth : σ → Time → Time → List Event × Option String

/-- `repository.New()`: the in-memory store as a `Repository`. -/
def New : Repository MemoryRepository :=
  { CreateEvent := CreateEvent
    UpdateEvent := UpdateEvent
    DeleteEvent := DeleteEvent
    GetEventDay := GetEventDay
    GetEventWeek := GetEventWeek
    GetEventMonth := GetEventMonth }

namespace EventService

/-- Service `CreateEvent(event)`: the store after the call, the event of the
caller after the call, and the returned error. -/
def CreateEvent {σ : Type} (repo : Repository σ) (s : σ) (event : Event) :
    σ × Event × Option Err :=
  if event.Text = "" then
    (s, event, some (.validation { Field := "text", Message := "event text cannot be empty" }))
  else if event.UserID = 0 then
    (s, event, some (.validation { Field := "user_id", Message := "user ID is required" }))
  else if event.Date.IsZero then
    (s, event, some (.validation { Field := "date", Message := "event date is required" }))
  else
    match repo.CreateEvent s event with
    | (s1, event1, some msg) =>
        (s1, event1, some (.internal { Operation := "create_event", Message := msg }))
    | (s1, event1, none) => (s1, event1, none)

/-- Service `UpdateEvent(event)`: the store after the call and the returned
error. -/
def UpdateEvent {σ : Type} (repo : Repository σ) (s : σ) (event : Event) : σ × Option Err :=
  if event.ID = 0 then
    (s, some (.validation { Field := "id", Message := "event ID is required" }))
  else if event.UserID = 0 then
    (s, some (.validation { Field := "user_id", Message := "user ID is required" }))
  else if event.Text = "" then
    (s, some (.validation { Field := "text", Message := "event text cannot be empty" }))
  else
    match repo.UpdateEvent s event.ID event with
    | (s1, some msg) =>
        if msg = "event not found" then
          (s1, some (.business { Operation := "update_event", Message := "event not found" }))
        else (s1, some (.internal { Operation := "update_event", Message := msg }))
    | (s1, none) => (s1, none)

/-- Service `DeleteEvent(eventID)`: the store after the call and the returned
error. -/
def DeleteEvent {σ : Type} (repo : Repository σ) (s : σ) (eventID : Int) : σ × Option Err :=
  if eventID = 0 then
    (s, some (.validation { Field := "id", Message := "event ID is required" }))
  else
    match repo.DeleteEvent s eventID with
    | (s1, some msg) =>
        if msg = "event not found" then
          (s1, some (.business { Operation := "delete_event", Message := "event not found" }))
        else (s1, some (.internal { Operation := "delete_event", Message := msg }))
    | (s1, none) => (s1, none)

/-- Service `GetEventsDay(date)`: the events, or `nil` and an `InternalError`. -/
def GetEventsDay {σ : Type} (repo : Repository σ) (s : σ) (date : Time) :
    List Event × Option Err :=
  match repo.GetEventDay s date with
  | (_, some msg) => ([], some (.internal { Operation := "get_events_day", Message := msg }))
  | (events, none) => (events, none)

/-- Service `GetEventsWeek(dayStart, dayEnd)`. -/
def GetEventsWeek {σ : Type} (repo : Repository σ) (s : σ) (dayStart dayEnd : Time) :
    List Event × Option Err :=
  match repo.GetEventWeek s dayStart dayEnd with
  | (_, some msg) => ([], some (.internal { Operation := "get_events_week", Message := msg }))
  | (events, none) => (events, none)

/-- Service `GetEventsMonth(dayStart, dayEnd)`. -/
def GetEventsMonth {σ : Type} (repo : Repository σ) (s : σ) (dayStart dayEnd : Time) :
    List Event × Option Err :=
  match repo.GetEventMonth s dayStart dayEnd with
  | (_, some msg) => ([], some (.internal { Operation := "get_events_month", Message := msg }))
  | (events, none) => (events, none)

end EventService

/-- A call of the service that changes the store. -/
inductive Call where
  | create (event : Event)
  | update (event : Event)
  | delete (id : Int)

/-- The in-memory store after one call of the service, whether the call
succeeds or fails. -/
def Call.apply (r : MemoryRepository) : Call → MemoryRepository
  | .create event => (EventService.CreateEvent New r event).1
  | .update event => (EventService.UpdateEvent New r event).1
  | .delete id => (EventService.DeleteEvent New r id).1

/-- The in-memory store after a sequence of calls of the service. -/
def serve (r : MemoryRepository) (calls : List Call) : MemoryRepository :=
  calls.foldl Call.apply r

/-! ## The handler (`internal/handler/handler.go`) -/

/-- What a handler writes: either the call `http.Error(w, text, code)`, or
the JSON encoding of a slice of events with status 200. -/
inductive Response where
  | error (text : String) (code : Nat)
  | events (list : List Event)
deriving DecidableEq

namespace EventHandler

/-- The method `handleError(w, err)`: the switch on the type of `err`. -/
def handleError (err : Err) : Response :=
  match err with
  | .validation e => .error e.Error 400
  | .business e => .error e.Error 503
  | .internal e => .error e.Error 500
  | .other _ => .error "Internal server error" 500

/-- The loop `for _, event := range events` of the three listing handlers:
the events of user `userID` are appended to `userEvents` in turn. -/
def userEvents (events : List Event) (userID : Int) : List Event :=
  events.foldl
    (fun userEvents event =>
      if event.UserID = userID then userEvents ++ [event] else userEvents) []

/-- `GetEventsForDay`, once the query parameters have been parsed into `date`
and `userID`. -/
def GetEventsForDay {σ : Type} (repo : Repository σ) (s : σ) (date : Time)
    (userID : Int) : Response :=
  match EventService.GetEventsDay repo s date with
  | (_, some err) => handleError err
  | (events, none) => .events (userEvents events userID)

/-- The loop `for weekStart.Weekday() != time.Monday` of `GetEventsForWeek`,
run for at most `fuel` tests of its condition: the value of `weekStart` when
the loop is left, or `none` when the tests are used up. -/
def weekStartLoop : Nat → Time → Option Time
  | 0, _ => none
  | fuel + 1, weekStart =>
      if weekStart.Weekday ≠ 1 then weekStartLoop fuel (weekStart.AddDate 0 0 (-1))
      else some weekStart

/-- `GetEventsForWeek`, once the query parameters have been parsed into `date`
and `userID`; `none` when the loop is not left within `fuel` tests. -/
def GetEventsForWeek {σ : Type} (fuel : Nat) (repo : Repository σ) (s : σ) (date : Time)
    (userID : Int) : Option Response :=
  match weekStartLoop fuel date with
  | none => none
  | some weekStart =>
      let weekEnd := weekStart.AddDate 0 0 7
      match EventService.GetEventsWeek repo s weekStart weekEnd with
      | (_, some err) => some (handleError err)
      | (events, none) => some (.events (userEvents events userID))

/-- `GetEventsForMonth`, once the query parameters have been parsed into `date`
and `userID`. -/
def GetEventsForMonth {σ : Type} (repo : Repository σ) (s : σ) (date : Time)
    (userID : Int) : Response :=
  let monthStart := Date date.Year date.Month 1 0 0 0 0 date.offset
  let monthEnd := (monthStart.AddDate 0 1 0).Add (-1)
  match EventService.GetEventsMonth repo s monthStart monthEnd with
  | (_, some err) => handleError err
  | (events, none) => .events (userEvents events userID)

end EventHandler

/-! ## The store with its pointers -/

namespace Ptr

/-- The store as it lies in memory.  `heap` holds the `model.Event` records
allocated so far, those of the callers included; a pointer `*model.Event` is
the index of its record in `heap`.  `events` is the map of
`MemoryRepository`, from identifier to pointer. -/
structure Store where
  heap : List Event
  events : AList (fun _ : Int => Nat)
  nextID : Int

/-- The record a pointer points to (the zero record for an index that has not
been allocated; the operations below are meant for allocated pointers). -/
def deref (heap : List Event) (p : Nat) : Event :=
  heap.getD p { ID := 0, UserID := 0, Date := { ns := 0, offset := 0 }, Text := "" }

/-- An assignment by a caller to the record behind the pointer `p`, as in
`p.Text = "..."`: the record becomes `e`. -/
def assign (m : Store) (p : Nat) (e : Event) : Store :=
  { m with heap := m.heap.set p e }

/-- `CreateEvent(event)` on pointers: `event.ID` is written through the
pointer of the caller, a new record `&model.Event{...}` is allocated behind
the records of the heap and its pointer is put into the map. -/
def CreateEvent (m : Store) (event : Nat) : Store × Option String :=
  let heap1 := m.heap.set event { deref m.heap event with ID := m.nextID }
  let e := deref heap1 event
  let stored : Event := { ID := e.ID, UserID := e.UserID, Date := e.Date, Text := e.Text }
  ({ heap := heap1 ++ [stored], events := m.events.insert e.ID heap1.length,
     nextID := m.nextID + 1 }, none)

/-- `UpdateEvent(id, event)` on pointers: a new record is allocated and its
pointer replaces the one under `id`. -/
def UpdateEvent (m : Store) (id : Int) (event : Nat) : Store × Option String :=
  if !(m.events.lookup id).isSome then (m, some "event not found")
  else
    let e := deref m.heap event
    let stored : Event := { ID := id, UserID := e.UserID, Date := e.Date, Text := e.Text }
    ({ m with heap := m.heap ++ [stored], events := m.events.insert id m.heap.length }, none)

/-- `DeleteEvent(id)` on pointers: the pointer is taken out of the map. -/
def DeleteEvent (m : Store) (id : Int) : Store × Option String :=
  if !(m.events.lookup id).isSome then (m, some "event not found")
  else ({ m with events := m.events.erase id }, none)

/-- The store seen through its pointers: under every identifier the record
its pointer points to. -/
def values (m : Store) : MemoryRepository :=
  { events :=
      { entries := m.events.entries.map (fun kv => ⟨kv.1, deref m.heap kv.2⟩)
        nodupKeys := by
          have h := m.events.nodupKeys
          simpa [List.NodupKeys, List.keys, List.map_map, Function.comp_def] using h }
    nextID := m.nextID }

/-- `GetEventDay(date)` on pointers: the loop appends the pointers found in the
map, `events = append(events, event)`, and the slice of pointers is sorted by
the dates of the records they point to. -/
def GetEventDay (m : Store) (date : Time) : List Nat × Option String :=
  let events := m.events.entries.foldl
    (fun events kv =>
      if isSameDay (deref m.heap kv.2).Date date then events ++ [kv.2] else events) []
  (sortSlice (fun a b => (deref m.heap a).Date.Before (deref m.heap b).Date) events, none)

/-- `GetEventWeek(startDate, endDate)` on pointers. -/
def GetEventWeek (m : Store) (startDate endDate : Time) : List Nat × Option String :=
  let events := m.events.entries.foldl
    (fun events kv =>
      if ((deref m.heap kv.2).Date.Equal startDate ||
            (deref m.heap kv.2).Date.After startDate) &&
          ((deref m.heap kv.2).Date.Equal endDate ||
            (deref m.heap kv.2).Date.Before endDate)
      then events ++ [kv.2] else events) []
  (sortSlice (fun a b => (deref m.heap a).Date.Before (deref m.heap b).Date) events, none)

/-- `GetEventMonth(startDate, endDate)` on pointers calls `GetEventWeek`. -/
def GetEventMonth (m : Store) (startDate endDate : Time) : List Nat × Option String :=
  GetEventWeek m startDate endDate

end Ptr

/-! ## Concurrent calls of `CreateEvent` -/

/-- A goroutine that runs `CreateEvent(event)`.  `pc` counts the statements it
has executed: at 0 it is about to call `r.mu.Lock()`, at 1 to run
`event.ID = r.nextID`, at 2 to run `r.events[event.ID] = &model.Event{...}`,
at 3 to run `r.nextID++`, at 4 to return, which runs the deferred
`r.mu.Unlock()`, and at 5 it has returned.  `event` is the record of its
caller. -/
structure Goroutine where
  pc : Nat
  event : Event

/-- The store shared by goroutines: the map and counter, the mutex `r.mu`
(the index of the goroutine that holds it, if any) and the goroutines. -/
structure Concurrent where
  repo : MemoryRepository
  mu : Option Nat
  gs : List Goroutine

namespace Concurrent

/-- Goroutine `i` executes its next statement; `none` when it cannot: it has
returned, there is no such goroutine, or it waits in `Lock()` for a mutex
that is held. -/
def step (c : Concurrent) (i : Nat) : Option Concurrent :=
  match c.gs[i]? with
  | none => none
  | some g =>
    if g.pc = 0 then
      if c.mu = none then
        some { c with mu := some i, gs := c.gs.set i { g with pc := 1 } }
      else none
    else if g.pc = 1 then
      some { c with
        gs := c.gs.set i { pc := 2, event := { g.event with ID := c.repo.nextID } } }
    else if g.pc = 2 then
      some { c with
        repo := { c.repo with
          events := c.repo.events.insert g.event.ID
            { ID := g.event.ID, UserID := g.event.UserID, Date := g.event.Date,
              Text := g.event.Text } }
        gs := c.gs.set i { g with pc := 3 } }
    else if g.pc = 3 then
      some { c with
        repo := { c.repo with nextID := c.repo.nextID + 1 }
        gs := c.gs.set i { g with pc := 4 } }
    else if g.pc = 4 then
      some { c with mu := none, gs := c.gs.set i { g with pc := 5 } }
    else none

/-- An interleaving: the goroutines named by `sched` execute one statement
each, in that order; `none` when one of them cannot. -/
def exec : Concurrent → List Nat → Option Concurrent
  | c, [] => some c
  | c, i :: sched =>
      match c.step i with
      | none => none
      | some c1 => exec c1 sched

/-- A fresh store and one goroutine per event, none of which has started. -/
def start (es : List Event) : Concurrent :=
  { repo := NewMemoryRepository, mu := none,
    gs := es.map (fun e => { pc := 0, event := e }) }

/-- What holds in every state an interleaving reaches from `start es`. -/
structure Inv (es : List Event) (c : Concurrent) : Prop where
  bound : ∀ (j : Nat) (g : Goroutine), c.gs[j]? = some g → g.pc ≤ 5
  excl : ∀ (j : Nat) (g : Goroutine), c.gs[j]? = some g → 1 ≤ g.pc → g.pc ≤ 4 →
    c.mu = some j
  holder : ∀ i : Nat, c.mu = some i →
    ∃ g : Goroutine, c.gs[i]? = some g ∧ 1 ≤ g.pc ∧ g.pc ≤ 4
  assigned : ∀ (j : Nat) (g : Goroutine), c.gs[j]? = some g → g.pc = 2 ∨ g.pc = 3 →
    g.event.ID = c.repo.nextID
  counter : c.repo.nextID = 1 + (c.gs.countP (fun g => decide (4 ≤ g.pc)) : Int)
  keys : ∀ k : Int, k ∈ c.repo.events ↔
    1 ≤ k ∧ k ≤ (c.gs.countP (fun g => decide (3 ≤ g.pc)) : Int)
  idkey : ∀ (k : Int) (v : Event), c.repo.events.lookup k = some v → v.ID = k
  kept : ∀ (j : Nat) (g : Goroutine), c.gs[j]? = some g → 3 ≤ g.pc →
    c.repo.events.lookup g.event.ID = some
      { ID := g.event.ID, UserID := g.event.UserID, Date := g.event.Date,
        Text := g.event.Text }
  fields : ∀ (j : Nat) (g : Goroutine), c.gs[j]? = some g → ∃ e : Event, es[j]? = some e ∧
    g.event.UserID = e.UserID ∧ g.event.Date = e.Date ∧ g.event.Text = e.Text
  len : c.gs.length = es.length

end Concurrent

/-! ## Sample data -/

/-- The instant 2024-01-15T10:00:00Z, in UTC. -/
def sampleDate : Time := { ns := 63840909600000000000, offset := 0 }

/-- An event as a caller passes it to `CreateEvent`: no identifier yet. -/
def sampleEvent : Event := { ID := 0, UserID := 1, Date := sampleDate, Text := "Test Event" }

/-- A second event, two hours later on the same day. -/
def laterEvent : Event :=
  { ID := 0, UserID := 2, Date := sampleDate.Add (2 * 3600 * 1000000000),
    Text := "Afternoon Event" }

/-- The store holding `sampleEvent` under 1 and `laterEvent` under 2, with its
entries listed in the order 1, 2. -/
def sampleStore : MemoryRepository :=
  { events := AList.insert 1 { sampleEvent with ID := 1 }
      (AList.insert 2 { laterEvent with ID := 2 } ∅),
    nextID := 3 }

/-- An update for the record under 1 that passes the checks of service
`UpdateEvent` and carries the zero time. -/
def zeroDateEvent : Event :=
  { ID := 1, UserID := 1, Date := { ns := 0, offset := 0 }, Text := "Test Event" }

/-- The event A of the listing scenario: user 1, 2024-01-15T10:00:00Z. -/
def eventA : Event :=
  { ID := 0, UserID := 1, Date := Date 2024 1 15 10 0 0 0 0, Text := "A" }

/-- The event B of the listing scenario: user 1, 2024-01-15T12:00:00Z. -/
def eventB : Event :=
  { ID := 0, UserID := 1, Date := Date 2024 1 15 12 0 0 0 0, Text := "B" }

/-- The event C of the listing scenario: user 1, 2024-01-16T10:00:00Z. -/
def eventC : Event :=
  { ID := 0, UserID := 1, Date := Date 2024 1 16 10 0 0 0 0, Text := "C" }

/-- The store after A, B and C have been created through the service on an
empty store. -/
def scenarioStore : MemoryRepository :=
  serve NewMemoryRepository [Call.create eventA, Call.create eventB, Call.create eventC]

/-- An event of user 1 at 2024-01-22T00:00:00Z, the Monday that follows the
week of Monday 2024-01-15. -/
def nextMondayEvent : Event :=
  { ID := 0, UserID := 1, Date := Date 2024 1 22 0 0 0 0 0, Text := "Next Monday Event" }

/-- A fresh store next to one record of a caller, `sampleEvent`, at pointer 0. -/
def Ptr.fresh : Ptr.Store := { heap := [sampleEvent], events := ∅, nextID := 1 }

/-- The state after two goroutines, for `sampleEvent` and `laterEvent`, have
run `CreateEvent` to the end, the second one first. -/
def afterTwoCallers : Concurrent :=
  { repo :=
      { events := AList.insert 2 { sampleEvent with ID := 2 }
          (AList.insert 1 { laterEvent with ID := 1 } ∅),
        nextID := 3 }
    mu := none
    gs := [{ pc := 5, event := { sampleEvent with ID := 2 } },
      { pc := 5, event := { laterEvent with ID := 1 } }] }

/-! ## Lemmas -/

theorem yearDay_arith (d n400 d1 c n100 d2 n4 d3 q n1 y yd : Int)
    (h1 : n400 = d / 146097) (h2 : d1 = d - 146097 * n400) (h3 : c = d1 / 36524)
    (h4 : n100 = c - c / 4) (h5 : d2 = d1 - 36524 * n100) (h6 : n4 = d2 / 1461)
    (h7 : d3 = d2 - 1461 * n4) (h8 : q = d3 / 365) (h9 : n1 = q - q / 4)
    (hy : y = 400 * n400 + 100 * n100 + 4 * n4 + n1 + 1) (hyd : yd = d3 - 365 * n1) :
    d = 365 * (y - 1) + (y - 1) / 4 - (y - 1) / 100 + (y - 1) / 400 + yd ∧ 0 ≤ yd ∧
      (yd < 365 ∨ yd = 365 ∧ y % 4 = 0 ∧ (y % 100 ≠ 0 ∨ y % 400 = 0)) := by
  have b1 : 0 ≤ d1 ∧ d1 < 146097 := by omega
  have b2 : 0 ≤ n100 ∧ n100 ≤ 3 := by omega
  have b3 : 0 ≤ d2 ∧ d2 ≤ 36524 := by omega
  have b4 : 0 ≤ n4 ∧ n4 ≤ 24 := by omega
  have b5 : 0 ≤ d3 ∧ d3 ≤ 1460 := by omega
  have b6 : 0 ≤ n1 ∧ n1 ≤ 3 := by omega
  have b7 : 0 ≤ yd ∧ yd ≤ 365 := by omega
  have e400 : (y - 1) / 400 = n400 := by omega
  have e100 : (y - 1) / 100 = 4 * n400 + n100 := by omega
  have e4 : (y - 1) / 4 = 100 * n400 + 25 * n100 + n4 := by omega
  have hleap : yd = 365 → n1 = 3 ∧ (n4 = 24 → n100 = 3) := by omega
  refine ⟨by omega, by omega, ?_⟩
  omega

theorem yearDay_spec (d : Int) :
    d = 365 * ((yearDay d).1 - 1) + ((yearDay d).1 - 1) / 4 - ((yearDay d).1 - 1) / 100 +
        ((yearDay d).1 - 1) / 400 + (yearDay d).2 ∧
      0 ≤ (yearDay d).2 ∧
      ((yearDay d).2 < 365 ∨ (yearDay d).2 = 365 ∧ (yearDay d).1 % 4 = 0 ∧
        ((yearDay d).1 % 100 ≠ 0 ∨ (yearDay d).1 % 400 = 0)) :=
  yearDay_arith d _ _ _ _ _ _ _ _ _ _ _ rfl rfl rfl rfl rfl rfl rfl rfl rfl rfl rfl


theorem daysBefore_table :
    daysBefore 0 = 0 ∧ daysBefore 1 = 31 ∧ daysBefore 2 = 59 ∧ daysBefore 3 = 90 ∧
      daysBefore 4 = 120 ∧ daysBefore 5 = 151 ∧ daysBefore 6 = 181 ∧ daysBefore 7 = 212 ∧
      daysBefore 8 = 243 ∧ daysBefore 9 = 273 ∧ daysBefore 10 = 304 ∧ daysBefore 11 = 334 ∧
      daysBefore 12 = 365 := by
  decide

theorem monthDay_arith (day : Int) (p : Int × Int) (h0 : 0 ≤ day) (h1 : day < 365)
    (hres : (if daysBefore (day / 31 + 1) ≤ day
        then (day / 31 + 2, day - daysBefore (day / 31 + 1) + 1)
        else (day / 31 + 1, day - daysBefore (day / 31) + 1)) = p) :
    day = daysBefore (p.1 - 1) + p.2 - 1 ∧ 1 ≤ p.1 ∧ p.1 ≤ 12 ∧ 1 ≤ p.2 ∧
      (p.1 ≤ 2 ↔ day < 59) := by
  obtain ⟨t0, t1, t2, t3, t4, t5, t6, t7, t8, t9, t10, t11, t12⟩ := daysBefore_table
  have hcases : day / 31 = 0 ∨ day / 31 = 1 ∨ day / 31 = 2 ∨ day / 31 = 3 ∨ day / 31 = 4 ∨
      day / 31 = 5 ∨ day / 31 = 6 ∨ day / 31 = 7 ∨ day / 31 = 8 ∨ day / 31 = 9 ∨
      day / 31 = 10 ∨ day / 31 = 11 := by omega
  subst hres
  rcases hcases with h | h | h | h | h | h | h | h | h | h | h | h <;> rw [h] <;>
    norm_num only [t0, t1, t2, t3, t4, t5, t6, t7, t8, t9, t10, t11, t12] <;>
    split <;>
    norm_num only [t0, t1, t2, t3, t4, t5, t6, t7, t8, t9, t10, t11, t12] <;>
    (try simp only [true_and, and_true, false_iff, true_iff, iff_true, iff_false]) <;> omega

theorem isLeap_iff (y : Int) :
    isLeap y = true ↔ y % 4 = 0 ∧ (y % 100 ≠ 0 ∨ y % 400 = 0) := by
  simp [isLeap]

theorem monthDay_spec (y yd : Int) (h0 : 0 ≤ yd)
    (h1 : yd < 365 ∨ yd = 365 ∧ isLeap y = true) :
    yd = daysBefore ((monthDay y yd).1 - 1) + (monthDay y yd).2 - 1 +
      (if isLeap y = true ∧ 3 ≤ (monthDay y yd).1 then 1 else 0) := by
  obtain ⟨t0, t1, t2, t3, t4, t5, t6, t7, t8, t9, t10, t11, t12⟩ := daysBefore_table
  unfold monthDay
  cases hl : isLeap y
  · have hyd : yd < 365 := by
      rcases h1 with h | ⟨_, h⟩
      · exact h
      · rw [hl] at h; exact absurd h (by simp)
    simp only [Bool.false_and, Bool.false_eq_true, if_false, false_and]
    generalize hp : (if daysBefore (yd / 31 + 1) ≤ yd
        then (yd / 31 + 2, yd - daysBefore (yd / 31 + 1) + 1)
        else (yd / 31 + 1, yd - daysBefore (yd / 31) + 1)) = p
    obtain ⟨e1, -⟩ := monthDay_arith yd p h0 hyd hp
    omega
  · simp only [Bool.true_and, beq_iff_eq, decide_eq_true_eq, true_and]
    by_cases h59 : yd = 59
    · subst h59
      norm_num [t1]
    · rw [if_neg h59]
      by_cases hgt : 59 < yd
      · simp only [if_pos hgt]
        generalize hp : (if daysBefore ((yd - 1) / 31 + 1) ≤ yd - 1
            then ((yd - 1) / 31 + 2, yd - 1 - daysBefore ((yd - 1) / 31 + 1) + 1)
            else ((yd - 1) / 31 + 1, yd - 1 - daysBefore ((yd - 1) / 31) + 1)) = p
        obtain ⟨e1, _, _, _, e5⟩ := monthDay_arith (yd - 1) p (by omega) (by omega) hp
        have h3 : 3 ≤ p.1 := by
          by_contra hc
          have := e5.1 (by omega)
          omega
        rw [if_pos h3]
        omega
      · simp only [if_neg hgt]
        generalize hp : (if daysBefore (yd / 31 + 1) ≤ yd
            then (yd / 31 + 2, yd - daysBefore (yd / 31 + 1) + 1)
            else (yd / 31 + 1, yd - daysBefore (yd / 31) + 1)) = p
        obtain ⟨e1, _, _, _, e5⟩ := monthDay_arith yd p h0 (by omega) hp
        have h3 : ¬ 3 ≤ p.1 := by
          have := e5.2 (by omega)
          omega
        rw [if_neg h3]
        omega

theorem date_eq_iff_days (t u : Time) : t.Date = u.Date ↔ t.days = u.days := by
  constructor
  · intro h
    simp only [Time.Date, Prod.mk.injEq] at h
    obtain ⟨hy, hm, hd⟩ := h
    obtain ⟨a1, a2, a3⟩ := yearDay_spec t.days
    obtain ⟨b1, b2, b3⟩ := yearDay_spec u.days
    have ha := monthDay_spec (yearDay t.days).1 (yearDay t.days).2 a2
      (by rw [isLeap_iff]; omega)
    have hb := monthDay_spec (yearDay u.days).1 (yearDay u.days).2 b2
      (by rw [isLeap_iff]; omega)
    rw [← hy] at hm hd hb
    rw [← hm, ← hd] at hb
    have hyd : (yearDay t.days).2 = (yearDay u.days).2 := hb ▸ ha
    rw [a1, b1, hy, hyd]
  · intro h
    simp only [Time.Date, h]

theorem days_add_day (t : Time) : (t.Add (24 * 3600 * 1000000000)).days = t.days + 1 := by
  simp only [Time.Add, Time.days]
  omega

theorem createEvent_nextID (r : MemoryRepository) (event : Event) :
    (CreateEvent r event).1.nextID = r.nextID + 1 := rfl

theorem createAll_spec (es : List Event) :
    ∀ r : MemoryRepository, (createAll r es).map (fun x => (x.1.ID, x.2)) =
      (List.range es.length).map
        (fun (k : Nat) => (r.nextID + (k : Int), (none : Option String))) := by
  induction es with
  | nil => intro r; rfl
  | cons e es ih =>
    intro r
    simp only [createAll, List.map_cons, List.length_cons, List.range_succ_eq_map, ih,
      List.map_map]
    simp [CreateEvent, Function.comp_def]
    intro a _
    omega

theorem createAll_ids_from (es : List Event) : ∀ r : MemoryRepository,
    ((createAll r es).map (fun x => x.1.ID)).Pairwise (fun a b => a < b) ∧
      ∀ x ∈ (createAll r es).map (fun x => x.1.ID), r.nextID ≤ x := by
  induction es with
  | nil => intro r; simp [createAll]
  | cons e es ih =>
    intro r
    obtain ⟨h1, h2⟩ := ih (CreateEvent r e).1
    rw [createEvent_nextID] at h2
    simp only [createAll, List.map_cons, List.pairwise_cons, List.mem_cons]
    refine ⟨⟨fun b hb => ?_, h1⟩, ?_⟩
    · have := h2 b hb
      show r.nextID < b
      omega
    · rintro x (rfl | hx)
      · exact le_refl _
      · have := h2 x hx
        omega

theorem nextID_apply_le (r : MemoryRepository) (op : Op) :
    r.nextID ≤ (op.apply r).nextID := by
  cases op with
  | create e => simp [Op.apply, CreateEvent]
  | update id e =>
    simp only [Op.apply, UpdateEvent]
    split <;> simp
  | delete id =>
    simp only [Op.apply, DeleteEvent]
    split <;> simp

theorem assignedIDs_from (ops : List Op) : ∀ r : MemoryRepository,
    (assignedIDs r ops).Pairwise (fun a b => a < b) ∧
      ∀ x ∈ assignedIDs r ops, r.nextID ≤ x := by
  induction ops with
  | nil => intro r; simp [assignedIDs]
  | cons op ops ih =>
    intro r
    cases op with
    | create e =>
      obtain ⟨h1, h2⟩ := ih (CreateEvent r e).1
      rw [createEvent_nextID] at h2
      simp only [assignedIDs, List.pairwise_cons, List.mem_cons]
      refine ⟨⟨fun b hb => ?_, h1⟩, ?_⟩
      · have := h2 b hb
        show r.nextID < b
        omega
      · rintro x (rfl | hx)
        · exact le_refl _
        · have := h2 x hx
          omega
    | update id e =>
      obtain ⟨h1, h2⟩ := ih ((Op.update id e).apply r)
      have hle := nextID_apply_le r (Op.update id e)
      simp only [assignedIDs]
      exact ⟨h1, fun x hx => le_trans hle (h2 x hx)⟩
    | delete id =>
      obtain ⟨h1, h2⟩ := ih ((Op.delete id).apply r)
      have hle := nextID_apply_le r (Op.delete id)
      simp only [assignedIDs]
      exact ⟨h1, fun x hx => le_trans hle (h2 x hx)⟩

theorem foldl_collect {κ : Type} (p : κ → Bool) (f : κ → Event) (l : List κ) :
    ∀ init : List Event,
      l.foldl (fun events kv => if p kv then events ++ [f kv] else events) init =
        init ++ (l.filter p).map f := by
  induction l with
  | nil => intro init; simp
  | cons a l ih =>
    intro init
    rw [List.foldl_cons, ih]
    by_cases h : p a = true <;> simp [h]

theorem swapLeft_perm {α : Type} (less : α → α → Bool) (x : α) (l : List α) :
    (swapLeft less x l).Perm (x :: l) := by
  induction l with
  | nil => exact List.Perm.refl _
  | cons y l ih =>
    unfold swapLeft
    split
    · exact ((List.Perm.cons y ih).trans (List.Perm.swap x y l))
    · exact List.Perm.refl _

theorem foldl_swapLeft_perm {α : Type} (less : α → α → Bool) (s : List α) :
    ∀ left : List α, (s.foldl (fun left x => swapLeft less x left) left).Perm (s ++ left) := by
  induction s with
  | nil => intro left; exact List.Perm.refl _
  | cons x s ih =>
    intro left
    rw [List.foldl_cons]
    refine (ih _).trans ?_
    refine (List.Perm.append_left s (swapLeft_perm less x left)).trans ?_
    exact (List.perm_middle).trans (List.Perm.refl _)

theorem sortSlice_perm {α : Type} (less : α → α → Bool) (s : List α) :
    (sortSlice less s).Perm s := by
  unfold sortSlice
  refine (List.reverse_perm _).trans ?_
  simpa using foldl_swapLeft_perm less s []

theorem swapLeft_pairwise {α : Type} (less : α → α → Bool)
    (hasym : ∀ a b, less a b = true → less b a = false)
    (htrans : ∀ a b c, less a b = false → less b c = false → less a c = false)
    (x : α) (l : List α) (h : l.Pairwise (fun a b => less a b = false)) :
    (swapLeft less x l).Pairwise (fun a b => less a b = false) := by
  induction l with
  | nil => simp [swapLeft]
  | cons y l ih =>
    rw [List.pairwise_cons] at h
    unfold swapLeft
    split
    · rename_i hxy
      rw [List.pairwise_cons]
      refine ⟨fun z hz => ?_, ih h.2⟩
      have hz2 := (swapLeft_perm less x l).mem_iff.1 hz
      rw [List.mem_cons] at hz2
      rcases hz2 with rfl | hz2
      · exact hasym _ _ hxy
      · exact h.1 z hz2
    · rename_i hxy
      have hxy : less x y = false := by simpa using hxy
      rw [List.pairwise_cons]
      refine ⟨fun z hz => ?_, List.pairwise_cons.2 h⟩
      rw [List.mem_cons] at hz
      rcases hz with rfl | hz
      · exact hxy
      · exact htrans _ _ _ hxy (h.1 z hz)

theorem sortSlice_sorted {α : Type} (less : α → α → Bool)
    (hasym : ∀ a b, less a b = true → less b a = false)
    (htrans : ∀ a b c, less a b = false → less b c = false → less a c = false)
    (s : List α) : (sortSlice less s).Pairwise (fun a b => less b a = false) := by
  unfold sortSlice
  rw [List.pairwise_reverse]
  suffices h : ∀ left : List α, left.Pairwise (fun a b => less a b = false) →
      (s.foldl (fun left x => swapLeft less x left) left).Pairwise
        (fun a b => less a b = false) from h [] List.Pairwise.nil
  induction s with
  | nil => intro left h; exact h
  | cons x s ih =>
    intro left h
    rw [List.foldl_cons]
    exact ih _ (swapLeft_pairwise less hasym htrans x left h)

theorem sortEventsByDate_perm (events : List Event) :
    (sortEventsByDate events).Perm events :=
  sortSlice_perm _ events

theorem sortEventsByDate_sorted (events : List Event) :
    (sortEventsByDate events).Pairwise (fun a b => b.Date.Before a.Date = false) := by
  apply sortSlice_sorted
  · intro a b h
    simp only [Time.Before, decide_eq_true_eq, decide_eq_false_iff_not] at *
    omega
  · intro a b c h1 h2
    simp only [Time.Before, decide_eq_true_eq, decide_eq_false_iff_not] at *
    omega

theorem getEventDay_fst (r : MemoryRepository) (d : Time) :
    (GetEventDay r d).1 = sortEventsByDate
      ((r.events.entries.filter (fun kv => isSameDay kv.2.Date d)).map (fun kv => kv.2)) := by
  have h := foldl_collect (fun kv : Sigma (fun _ : Int => Event) => isSameDay kv.2.Date d)
    (fun kv => kv.2) r.events.entries []
  simp only [List.nil_append] at h
  simp only [GetEventDay, h]

theorem getEventWeek_fst (r : MemoryRepository) (s e : Time) :
    (GetEventWeek r s e).1 = sortEventsByDate
      ((r.events.entries.filter (fun kv =>
        (kv.2.Date.Equal s || kv.2.Date.After s) &&
          (kv.2.Date.Equal e || kv.2.Date.Before e))).map (fun kv => kv.2)) := by
  have h := foldl_collect (fun kv : Sigma (fun _ : Int => Event) =>
      (kv.2.Date.Equal s || kv.2.Date.After s) && (kv.2.Date.Equal e || kv.2.Date.Before e))
    (fun kv => kv.2) r.events.entries []
  simp only [List.nil_append] at h
  simp only [GetEventWeek, h]

theorem isSameDay_iff (a b : Time) : isSameDay a b = true ↔ a.Date = b.Date := by
  unfold isSameDay
  rcases ha : a.Date with ⟨y1, m1, d1⟩
  rcases hb : b.Date with ⟨y2, m2, d2⟩
  simp [and_assoc]

theorem inRange_iff (t s e : Time) :
    ((t.Equal s || t.After s) && (t.Equal e || t.Before e)) = true ↔
      s.ns ≤ t.ns ∧ t.ns ≤ e.ns := by
  simp only [Time.Equal, Time.After, Time.Before, Bool.and_eq_true, Bool.or_eq_true,
    decide_eq_true_eq]
  omega

theorem mem_values_iff (r : MemoryRepository) (e : Event) :
    e ∈ r.events.entries.map (fun kv => kv.2) ↔ ∃ k, r.events.lookup k = some e := by
  constructor
  · intro h
    obtain ⟨⟨k, v⟩, hkv, rfl⟩ := List.mem_map.1 h
    exact ⟨k, AList.mem_lookup_iff.2 hkv⟩
  · rintro ⟨k, hk⟩
    exact List.mem_map.2 ⟨⟨k, e⟩, AList.mem_lookup_iff.1 hk, rfl⟩

theorem wellFormed_new : WellFormed NewMemoryRepository := by
  refine ⟨le_refl _, ?_⟩
  intro k v h
  simp [NewMemoryRepository] at h

theorem wellFormed_apply (r : MemoryRepository) (op : Op) (h : WellFormed r) :
    WellFormed (op.apply r) := by
  obtain ⟨h1, h2⟩ := h
  cases op with
  | create e =>
    refine ⟨by simp only [Op.apply, CreateEvent]; omega, ?_⟩
    intro k v hk
    simp only [Op.apply, CreateEvent] at hk ⊢
    by_cases hkn : k = r.nextID
    · subst hkn
      rw [AList.lookup_insert] at hk
      cases hk
      exact ⟨rfl, h1, by omega⟩
    · rw [AList.lookup_insert_ne hkn] at hk
      have := h2 k v hk
      exact ⟨this.1, this.2.1, by omega⟩
  | update id e =>
    simp only [Op.apply, UpdateEvent]
    cases hl : live r id
    · exact ⟨h1, h2⟩
    · refine ⟨h1, ?_⟩
      intro k v hk
      simp only [Bool.not_true, Bool.false_eq_true, if_false] at hk ⊢
      by_cases hkn : k = id
      · subst hkn
        rw [AList.lookup_insert] at hk
        cases hk
        obtain ⟨w, hw⟩ := Option.isSome_iff_exists.1 hl
        exact ⟨rfl, (h2 k w hw).2⟩
      · rw [AList.lookup_insert_ne hkn] at hk
        exact h2 k v hk
  | delete id =>
    simp only [Op.apply, DeleteEvent]
    cases hl : live r id
    · exact ⟨h1, h2⟩
    · refine ⟨h1, ?_⟩
      intro k v hk
      simp only [Bool.not_true, Bool.false_eq_true, if_false] at hk ⊢
      by_cases hkn : k = id
      · subst hkn
        rw [AList.lookup_erase] at hk
        cases hk
      · rw [AList.lookup_erase_ne hkn] at hk
        exact h2 k v hk

theorem wellFormed_run (ops : List Op) :
    ∀ r : MemoryRepository, WellFormed r → WellFormed (run r ops) := by
  induction ops with
  | nil => intro r h; exact h
  | cons op ops ih =>
    intro r h
    exact ih _ (wellFormed_apply r op h)

theorem gone_apply (r : MemoryRepository) (op : Op) (id : Int)
    (h : id < r.nextID ∧ r.events.lookup id = none) :
    id < (op.apply r).nextID ∧ (op.apply r).events.lookup id = none := by
  obtain ⟨h1, h2⟩ := h
  refine ⟨lt_of_lt_of_le h1 (nextID_apply_le r op), ?_⟩
  cases op with
  | create e =>
    simp only [Op.apply, CreateEvent]
    rw [AList.lookup_insert_ne (ne_of_lt h1)]
    exact h2
  | update k e =>
    simp only [Op.apply, UpdateEvent]
    cases hl : live r k
    · exact h2
    · simp only [Bool.not_true, Bool.false_eq_true, if_false]
      have hne : id ≠ k := by
        rintro rfl
        simp [live, h2] at hl
      rw [AList.lookup_insert_ne hne]
      exact h2
  | delete k =>
    simp only [Op.apply, DeleteEvent]
    cases hl : live r k
    · exact h2
    · simp only [Bool.not_true, Bool.false_eq_true, if_false]
      by_cases hne : id = k
      · subst hne
        exact AList.lookup_erase _ _
      · rw [AList.lookup_erase_ne hne]
        exact h2

theorem gone_run (ops : List Op) (id : Int) : ∀ r : MemoryRepository,
    id < r.nextID ∧ r.events.lookup id = none →
      id < (run r ops).nextID ∧ (run r ops).events.lookup id = none := by
  induction ops with
  | nil => intro r h; exact h
  | cons op ops ih =>
    intro r h
    exact ih _ (gone_apply r op id h)

theorem wellFormed_of_sameStore (a b : MemoryRepository) (h : sameStore a b)
    (hb : WellFormed b) : WellFormed a := by
  obtain ⟨hp, hn⟩ := h
  refine ⟨hn ▸ hb.1, ?_⟩
  intro k v hk
  rw [AList.perm_lookup hp] at hk
  rw [hn]
  exact hb.2 k v hk

theorem getEventDay_perm (r : MemoryRepository) (d : Time) :
    (GetEventDay r d).1.Perm
      ((r.events.entries.map (fun kv => kv.2)).filter
        (fun e => decide (e.Date.Date = d.Date))) := by
  rw [getEventDay_fst]
  refine (sortEventsByDate_perm _).trans ?_
  rw [List.filter_map]
  have hf : (fun kv : Sigma (fun _ : Int => Event) => isSameDay kv.2.Date d) =
      (fun e : Event => decide (e.Date.Date = d.Date)) ∘ (fun kv => kv.2) := by
    funext kv
    simp only [Function.comp]
    by_cases h : kv.2.Date.Date = d.Date
    · simp [h, (isSameDay_iff _ _).2 h]
    · have : ¬ isSameDay kv.2.Date d = true := fun hc => h ((isSameDay_iff _ _).1 hc)
      simp [h, this]
  rw [hf]

theorem getEventDay_mem (r : MemoryRepository) (d : Time) (e : Event) :
    e ∈ (GetEventDay r d).1 ↔
      (∃ k, r.events.lookup k = some e) ∧ e.Date.Date = d.Date := by
  rw [(getEventDay_perm r d).mem_iff, List.mem_filter, mem_values_iff]
  simp

theorem getEventWeek_perm (r : MemoryRepository) (s e : Time) :
    (GetEventWeek r s e).1.Perm
      ((r.events.entries.map (fun kv => kv.2)).filter
        (fun x => decide (s.ns ≤ x.Date.ns ∧ x.Date.ns ≤ e.ns))) := by
  rw [getEventWeek_fst]
  refine (sortEventsByDate_perm _).trans ?_
  rw [List.filter_map]
  have hf : (fun kv : Sigma (fun _ : Int => Event) =>
        (kv.2.Date.Equal s || kv.2.Date.After s) &&
          (kv.2.Date.Equal e || kv.2.Date.Before e)) =
      (fun x : Event => decide (s.ns ≤ x.Date.ns ∧ x.Date.ns ≤ e.ns)) ∘
        (fun kv => kv.2) := by
    funext kv
    simp only [Function.comp]
    rw [Bool.eq_iff_iff, inRange_iff]
    simp
  rw [hf]

theorem getEventWeek_mem (r : MemoryRepository) (s e : Time) (x : Event) :
    x ∈ (GetEventWeek r s e).1 ↔
      (∃ k, r.events.lookup k = some x) ∧ (x.Date.Before s = false) ∧
        (x.Date.After e = false) := by
  rw [(getEventWeek_perm r s e).mem_iff, List.mem_filter, mem_values_iff]
  simp [Time.Before, Time.After]

/-! ## Identifier assignment -/

/-- C1: on a fresh store, the calls `CreateEvent` made one after another on any
list of events (equal inputs allowed) all return no error, and the k-th call
writes identifier k into the event of its caller and leaves its other fields
alone, so the identifiers are 1, 2, ..., N, strictly increasing; every call
of `CreateEvent`, on any store, moves `nextID` up by exactly one. -/
theorem createEvent_assigns_1_to_N (es : List Event) :
    (createAll NewMemoryRepository es).map (fun x => (x.1.ID, x.2)) =
        (List.range es.length).map
          (fun (k : Nat) => ((k : Int) + 1, (none : Option String))) ∧
      ((createAll NewMemoryRepository es).map (fun x => x.1.ID)).Pairwise
        (fun a b => a < b) ∧
      (createAll NewMemoryRepository es).map
          (fun x => (x.1.UserID, x.1.Date, x.1.Text)) =
        es.map (fun e => (e.UserID, e.Date, e.Text)) ∧
      (∀ (r : MemoryRepository) (e : Event),
        (CreateEvent r e).1.nextID = r.nextID + 1 ∧ (CreateEvent r e).2.2 = none) := by
  refine ⟨?_, (createAll_ids_from es NewMemoryRepository).1, ?_, fun r e => ⟨rfl, rfl⟩⟩
  · rw [createAll_spec]
    apply List.map_congr_left
    intro k _
    simp [NewMemoryRepository, add_comm]
  · generalize NewMemoryRepository = r
    induction es generalizing r with
    | nil => rfl
    | cons e es ih => simp [createAll, ih, CreateEvent]

/-- C2: in any sequence of `CreateEvent`, `UpdateEvent` and `DeleteEvent` calls
on a fresh store, the identifiers handed out by the `CreateEvent` calls are
strictly increasing in call order, so no identifier is handed out twice,
whatever was deleted in between. -/
theorem identifiers_never_reused (ops : List Op) :
    (assignedIDs NewMemoryRepository ops).Pairwise (fun a b => a < b) ∧
      (assignedIDs NewMemoryRepository ops).Nodup := by
  have h := (assignedIDs_from ops NewMemoryRepository).1
  exact ⟨h, h.imp (fun hab => ne_of_lt hab)⟩

/-! ## Queries -/

/-- C3: for every store and every date `d`, `GetEventDay(d)` returns no error,
and its result holds exactly the stored records whose date has the year, month
and day of the month of `d`, each as often as the map holds it (its entries
have pairwise distinct keys, so every live record is counted once): nothing
else is returned.  The time of day plays no role: any `d2` on the same
calendar day gives the same result.  A record whose date is `d` plus 24
hours, with the zone offset of `d`, is never returned. -/
theorem getEventDay_returns_the_day (r : MemoryRepository) (d : Time) :
    (GetEventDay r d).2 = none ∧
      (GetEventDay r d).1.Perm
        ((r.events.entries.map (fun kv => kv.2)).filter
          (fun e => decide (e.Date.Date = d.Date))) ∧
      (∀ e, e ∈ (GetEventDay r d).1 ↔
        (∃ k, r.events.lookup k = some e) ∧ e.Date.Date = d.Date) ∧
      (∀ d2 : Time, d2.Date = d.Date → GetEventDay r d2 = GetEventDay r d) ∧
      (∀ e ∈ (GetEventDay r d).1, e.Date ≠ d.Add (24 * 3600 * 1000000000)) := by
  have hmem := getEventDay_mem r d
  refine ⟨rfl, getEventDay_perm r d, hmem, ?_, ?_⟩
  · intro d2 h
    have hs : ∀ t : Time, isSameDay t d2 = isSameDay t d := by
      intro t
      rw [Bool.eq_iff_iff, isSameDay_iff, isSameDay_iff, h]
    simp only [GetEventDay, hs]
  · intro e he heq
    have h1 := ((hmem e).1 he).2
    rw [heq, date_eq_iff_days, days_add_day] at h1
    omega

/-- C4: for every store and instants `s`, `e`, `GetEventWeek(s, e)` returns no
error, and its result holds exactly the stored records whose instant `t`
satisfies `s <= t <= e`, each as often as the map holds it, the bounds
included; it is empty when `e` is before `s`. -/
theorem getEventWeek_returns_the_range (r : MemoryRepository) (s e : Time) :
    (GetEventWeek r s e).2 = none ∧
      (GetEventWeek r s e).1.Perm
        ((r.events.entries.map (fun kv => kv.2)).filter
          (fun x => decide (s.ns ≤ x.Date.ns ∧ x.Date.ns ≤ e.ns))) ∧
      (∀ x, x ∈ (GetEventWeek r s e).1 ↔
        (∃ k, r.events.lookup k = some x) ∧ (x.Date.Before s = false) ∧
          (x.Date.After e = false)) ∧
      ((GetEventWeek r s e).1 = [] ∨ e.Before s = false) := by
  have hmem := getEventWeek_mem r s e
  refine ⟨rfl, getEventWeek_perm r s e, hmem, ?_⟩
  by_cases hes : e.Before s = false
  · exact Or.inr hes
  · left
    rw [List.eq_nil_iff_forall_not_mem]
    intro x hx
    have h := (hmem x).1 hx
    simp only [Time.Before, Time.After, decide_eq_false_iff_not, not_lt, not_le] at h hes
    omega

/-- C5: the results of `GetEventDay`, `GetEventWeek` and `GetEventMonth` are in
ascending order of instant: for any two positions, the record at the later
position is not before the record at the earlier one. -/
theorem query_results_ascending (r : MemoryRepository) (d s e : Time) :
    (GetEventDay r d).1.Pairwise (fun a b => b.Date.Before a.Date = false) ∧
      (GetEventWeek r s e).1.Pairwise (fun a b => b.Date.Before a.Date = false) ∧
      (GetEventMonth r s e).1.Pairwise (fun a b => b.Date.Before a.Date = false) :=
  ⟨sortEventsByDate_sorted _, sortEventsByDate_sorted _, sortEventsByDate_sorted _⟩

/-! ## Update and delete -/

/-- C6: when `id` is not live, `UpdateEvent(id, event)` returns the error
"event not found" and the store after the call is the store before it (same
map, same counter). -/
theorem updateEvent_not_found (r : MemoryRepository) (id : Int) (event : Event)
    (h : live r id = false) :
    UpdateEvent r id event = (r, some "event not found") := by
  simp [UpdateEvent, h]


theorem updateEvent_not_found_witness :
    live NewMemoryRepository 999 = false ∧
      UpdateEvent NewMemoryRepository 999 sampleEvent =
        (NewMemoryRepository, some "event not found") :=
  ⟨by decide, updateEvent_not_found NewMemoryRepository 999 sampleEvent (by decide)⟩

/-- C7: when `id` is live, `UpdateEvent(id, e)` returns no error; afterwards the
record under `id` has identifier `id` (whatever `e.ID` is) and the user id,
date and text of `e`, every other key holds what it held before, the same
identifiers are live, and `nextID` is unchanged. -/
theorem updateEvent_replaces_record (r : MemoryRepository) (id : Int) (e : Event)
    (h : live r id = true) :
    (UpdateEvent r id e).2 = none ∧
      (∀ k, (UpdateEvent r id e).1.events.lookup k =
        if k = id then some { ID := id, UserID := e.UserID, Date := e.Date, Text := e.Text }
        else r.events.lookup k) ∧
      (∀ k, live (UpdateEvent r id e).1 k = live r k) ∧
      (UpdateEvent r id e).1.nextID = r.nextID := by
  have hlook : ∀ k, (UpdateEvent r id e).1.events.lookup k =
      if k = id then some { ID := id, UserID := e.UserID, Date := e.Date, Text := e.Text }
      else r.events.lookup k := by
    intro k
    simp only [UpdateEvent, h, Bool.not_true, Bool.false_eq_true, if_false]
    by_cases hk : k = id
    · subst hk
      simp [AList.lookup_insert]
    · simp [hk, AList.lookup_insert_ne hk]
  refine ⟨by simp [UpdateEvent, h], hlook, ?_, by simp [UpdateEvent, h]⟩
  intro k
  unfold live
  rw [hlook k]
  by_cases hk : k = id
  · subst hk
    simpa [live] using h.symm
  · simp [hk]


theorem updateEvent_replaces_record_witness :
    live sampleStore 1 = true ∧
      (UpdateEvent sampleStore 1 { laterEvent with ID := 7 }).2 = none ∧
      (UpdateEvent sampleStore 1 { laterEvent with ID := 7 }).1.nextID = 3 :=
  ⟨by decide,
    (updateEvent_replaces_record sampleStore 1 { laterEvent with ID := 7 } (by decide)).1,
    (updateEvent_replaces_record sampleStore 1 { laterEvent with ID := 7 } (by decide)).2.2.2⟩

/-- C8: `DeleteEvent(id)` returns an error exactly when `id` is not live, and
the error is then "event not found". -/
theorem deleteEvent_error_iff (r : MemoryRepository) (id : Int) :
    ((DeleteEvent r id).2 ≠ none ↔ live r id = false) ∧
      (DeleteEvent r id).2 = (if live r id then none else some "event not found") := by
  cases h : live r id <;> simp [DeleteEvent, h]

/-! ## Deletion and creation seen through the queries -/

/-- C9: let `id` be live in a store reached from a fresh one by `ops1`.  Then
`DeleteEvent(id)` succeeds, removes the record under `id` and changes no other
record nor the counter.  After any further calls `ops2`, in whatever order
the entries of the resulting store `r3` are visited, no result of
`GetEventDay` or `GetEventWeek` holds a record with identifier `id`, and
`UpdateEvent(id, _)` and `DeleteEvent(id)` fail with "event not found",
leaving the store as it is. -/
theorem deletion_is_permanent (ops1 ops2 : List Op) (id : Int) (r3 : MemoryRepository)
    (hlive : live (run NewMemoryRepository ops1) id = true)
    (hsame : sameStore r3 (run (DeleteEvent (run NewMemoryRepository ops1) id).1 ops2)) :
    (DeleteEvent (run NewMemoryRepository ops1) id).2 = none ∧
      (∀ k, (DeleteEvent (run NewMemoryRepository ops1) id).1.events.lookup k =
        if k = id then none else (run NewMemoryRepository ops1).events.lookup k) ∧
      (DeleteEvent (run NewMemoryRepository ops1) id).1.nextID =
        (run NewMemoryRepository ops1).nextID ∧
      (∀ d, ∀ x ∈ (GetEventDay r3 d).1, x.ID ≠ id) ∧
      (∀ s e, ∀ x ∈ (GetEventWeek r3 s e).1, x.ID ≠ id) ∧
      (∀ ev, UpdateEvent r3 id ev = (r3, some "event not found")) ∧
      DeleteEvent r3 id = (r3, some "event not found") := by
  have hwf0 := wellFormed_run ops1 _ wellFormed_new
  generalize run NewMemoryRepository ops1 = r0 at *
  have hdel : DeleteEvent r0 id = ({ r0 with events := r0.events.erase id }, none) := by
    simp [DeleteEvent, hlive]
  have hlook : ∀ k, (DeleteEvent r0 id).1.events.lookup k =
      if k = id then none else r0.events.lookup k := by
    intro k
    rw [hdel]
    by_cases hk : k = id
    · subst hk
      simp [AList.lookup_erase]
    · simp [hk, AList.lookup_erase_ne hk]
  obtain ⟨w, hw⟩ := Option.isSome_iff_exists.1 hlive
  have hwf1 : WellFormed (DeleteEvent r0 id).1 := wellFormed_apply r0 (Op.delete id) hwf0
  have hgone1 : id < (DeleteEvent r0 id).1.nextID ∧
      (DeleteEvent r0 id).1.events.lookup id = none := by
    refine ⟨?_, by simpa using hlook id⟩
    rw [hdel]
    exact (hwf0.2 id w hw).2.2
  have hwf2 := wellFormed_run ops2 _ hwf1
  have hgone2 := gone_run ops2 id _ hgone1
  have hwf3 := wellFormed_of_sameStore r3 _ hsame hwf2
  have hgone3 : r3.events.lookup id = none := by
    rw [AList.perm_lookup hsame.1]
    exact hgone2.2
  have hnot : live r3 id = false := by simp [live, hgone3]
  have hid : ∀ x, (∃ k, r3.events.lookup k = some x) → x.ID ≠ id := by
    rintro x ⟨k, hk⟩ hx
    have := (hwf3.2 k x hk).1
    rw [hx] at this
    rw [this, hk] at hgone3
    cases hgone3
  refine ⟨by rw [hdel], hlook, by rw [hdel], ?_, ?_, ?_, ?_⟩
  · intro d x hx
    exact hid x (((getEventDay_mem r3 d x).1 hx).1)
  · intro s e x hx
    exact hid x (((getEventWeek_mem r3 s e x).1 hx).1)
  · intro ev
    simp [UpdateEvent, hnot]
  · simp [DeleteEvent, hnot]


theorem deletion_is_permanent_witness :
    live (run NewMemoryRepository [Op.create sampleEvent, Op.create laterEvent]) 1 = true ∧
      sameStore
        (run (DeleteEvent (run NewMemoryRepository
          [Op.create sampleEvent, Op.create laterEvent]) 1).1
          [Op.create sampleEvent, Op.update 1 laterEvent])
        (run (DeleteEvent (run NewMemoryRepository
          [Op.create sampleEvent, Op.create laterEvent]) 1).1
          [Op.create sampleEvent, Op.update 1 laterEvent]) ∧
      ∀ x ∈ (GetEventDay
        (run (DeleteEvent (run NewMemoryRepository
          [Op.create sampleEvent, Op.create laterEvent]) 1).1
          [Op.create sampleEvent, Op.update 1 laterEvent]) sampleDate).1, x.ID ≠ 1 :=
  ⟨by decide, ⟨List.Perm.refl _, rfl⟩,
    (deletion_is_permanent [Op.create sampleEvent, Op.create laterEvent]
      [Op.create sampleEvent, Op.update 1 laterEvent] 1 _ (by decide)
      ⟨List.Perm.refl _, rfl⟩).2.2.2.1 sampleDate⟩

/-- C10: on a store reached from a fresh one by any calls, `CreateEvent(e)`
returns no error and writes a non-zero identifier, the counter of the store,
into `e.ID`, changing nothing else of `e`.  A following `GetEventDay(e.Date)`,
in whatever order the entries of the resulting store `r3` are visited,
returns no error and exactly one record with that identifier, and this record
has the user id, date and text of `e`.  On a fresh store the identifier is 1
and the result is that one record. -/
theorem create_then_getEventDay (ops : List Op) (e : Event) (r3 : MemoryRepository)
    (hsame : sameStore r3 (CreateEvent (run NewMemoryRepository ops) e).1) :
    (CreateEvent (run NewMemoryRepository ops) e).2.2 = none ∧
      (CreateEvent (run NewMemoryRepository ops) e).2.1.ID ≠ 0 ∧
      (CreateEvent (run NewMemoryRepository ops) e).2.1 =
        { e with ID := (run NewMemoryRepository ops).nextID } ∧
      (GetEventDay r3 e.Date).2 = none ∧
      (GetEventDay r3 e.Date).1.filter
          (fun x => x.ID == (CreateEvent (run NewMemoryRepository ops) e).2.1.ID) =
        [{ ID := (run NewMemoryRepository ops).nextID, UserID := e.UserID,
           Date := e.Date, Text := e.Text }] ∧
      GetEventDay (CreateEvent NewMemoryRepository e).1 e.Date =
        ([{ ID := 1, UserID := e.UserID, Date := e.Date, Text := e.Text }], none) := by
  have hwf := wellFormed_run ops _ wellFormed_new
  generalize run NewMemoryRepository ops = r at *
  refine ⟨rfl, ?_, rfl, rfl, ?_, ?_⟩
  · show r.nextID ≠ 0
    have := hwf.1
    omega
  · show (GetEventDay r3 e.Date).1.filter (fun x => x.ID == r.nextID) = _
    have hnot : r.nextID ∉ r.events := by
      rw [← AList.lookup_eq_none]
      cases hl : r.events.lookup r.nextID with
      | none => rfl
      | some v => exact absurd (hwf.2 _ v hl).2.2 (lt_irrefl _)
    have hent : (CreateEvent r e).1.events.entries =
        ⟨r.nextID, { ID := r.nextID, UserID := e.UserID, Date := e.Date, Text := e.Text }⟩ ::
          r.events.entries := by
      simp only [CreateEvent]
      exact AList.insert_entries_of_neg hnot
    have hp1 := (getEventDay_perm r3 e.Date)
    have hp2 : (r3.events.entries.map (fun kv => kv.2)).Perm
        ((CreateEvent r e).1.events.entries.map (fun kv => kv.2)) := hsame.1.map _
    have hp3 := (hp1.trans (hp2.filter _)).filter (fun x => x.ID == r.nextID)
    rw [hent] at hp3
    simp only [List.map_cons, List.filter_cons, decide_True, if_true, beq_self_eq_true] at hp3
    have hrest : (List.filter (fun x => x.ID == r.nextID)
        (List.filter (fun x => decide (x.Date.Date = e.Date.Date))
          (List.map (fun kv => kv.2) r.events.entries))) = [] := by
      rw [List.eq_nil_iff_forall_not_mem]
      intro x hx
      rw [List.mem_filter, List.mem_filter, mem_values_iff] at hx
      obtain ⟨⟨⟨k, hk⟩, _⟩, hxid⟩ := hx
      have := hwf.2 k x hk
      simp only [beq_iff_eq] at hxid
      omega
    rw [hrest] at hp3
    exact List.perm_singleton.1 hp3
  · rw [Prod.ext_iff]
    refine ⟨?_, rfl⟩
    rw [getEventDay_fst]
    have : isSameDay e.Date e.Date = true := (isSameDay_iff _ _).2 rfl
    simp [CreateEvent, NewMemoryRepository, AList.insert, this, sortEventsByDate, sortSlice,
      swapLeft]


theorem create_then_getEventDay_witness :
    sameStore sampleStore
        (CreateEvent (run NewMemoryRepository [Op.create sampleEvent]) laterEvent).1 ∧
      (GetEventDay sampleStore laterEvent.Date).1.filter (fun x => x.ID == 2) =
        [{ ID := 2, UserID := 2, Date := laterEvent.Date, Text := "Afternoon Event" }] :=
  ⟨⟨List.Perm.swap _ _ _, rfl⟩,
    (create_then_getEventDay [Op.create sampleEvent] laterEvent sampleStore
      ⟨List.Perm.swap _ _ _, rfl⟩).2.2.2.2.1⟩

/-! ## Service: validation and error kinds -/

/-- C11: service `CreateEvent` checks text, then user id, then date.  With an
empty text it returns the `ValidationError` for field "text" whatever the
other fields are; otherwise with user id 0 the one for "user_id"; otherwise
with the zero time the one for "date"; in these cases the store and the event
are untouched.  Otherwise it hands the event to the store: it returns what
the store returns, an error of the store being wrapped as an `InternalError`,
and never a `ValidationError`. -/
theorem service_createEvent_checks_in_order {σ : Type} (repo : Repository σ) (s : σ)
    (event : Event) :
    (event.Text = "" → EventService.CreateEvent repo s event =
      (s, event, some (.validation
        { Field := "text", Message := "event text cannot be empty" }))) ∧
    (event.Text ≠ "" → event.UserID = 0 → EventService.CreateEvent repo s event =
      (s, event, some (.validation
        { Field := "user_id", Message := "user ID is required" }))) ∧
    (event.Text ≠ "" → event.UserID ≠ 0 → event.Date.IsZero = true →
      EventService.CreateEvent repo s event =
        (s, event, some (.validation
          { Field := "date", Message := "event date is required" }))) ∧
    (event.Text ≠ "" → event.UserID ≠ 0 → event.Date.IsZero = false →
      (EventService.CreateEvent repo s event).1 = (repo.CreateEvent s event).1 ∧
      (EventService.CreateEvent repo s event).2.1 = (repo.CreateEvent s event).2.1 ∧
      (EventService.CreateEvent repo s event).2.2 =
        (repo.CreateEvent s event).2.2.map
          (fun msg => Err.internal { Operation := "create_event", Message := msg }) ∧
      ∀ e : ValidationError,
        (EventService.CreateEvent repo s event).2.2 ≠ some (.validation e)) := by
  refine ⟨?_, ?_, ?_, ?_⟩
  · intro h
    simp [EventService.CreateEvent, h]
  · intro h1 h2
    simp [EventService.CreateEvent, h1, h2]
  · intro h1 h2 h3
    simp [EventService.CreateEvent, h1, h2, h3]
  · intro h1 h2 h3
    simp only [EventService.CreateEvent, h1, h2, h3, if_false, Bool.false_eq_true]
    rcases hr : repo.CreateEvent s event with ⟨s1, event1, _ | msg⟩ <;> simp

/-- C12: service `UpdateEvent` checks the identifier, then the user id, then
the text, and nothing else.  With `ID` 0 it returns the `ValidationError` for
field "id"; otherwise with user id 0 the one for "user_id"; otherwise with an
empty text the one for "text"; in these cases the store is untouched.  An
event with non-zero `ID`, non-zero user id and non-empty text is handed to the
store and never gets a `ValidationError`, whatever its date, the zero time
included: a `ValidationError` of `UpdateEvent` only ever names "id",
"user_id" or "text". -/
theorem service_updateEvent_checks_in_order {σ : Type} (repo : Repository σ) (s : σ)
    (event : Event) :
    (event.ID = 0 → EventService.UpdateEvent repo s event =
      (s, some (.validation { Field := "id", Message := "event ID is required" }))) ∧
    (event.ID ≠ 0 → event.UserID = 0 → EventService.UpdateEvent repo s event =
      (s, some (.validation { Field := "user_id", Message := "user ID is required" }))) ∧
    (event.ID ≠ 0 → event.UserID ≠ 0 → event.Text = "" →
      EventService.UpdateEvent repo s event =
        (s, some (.validation
          { Field := "text", Message := "event text cannot be empty" }))) ∧
    (event.ID ≠ 0 → event.UserID ≠ 0 → event.Text ≠ "" →
      (EventService.UpdateEvent repo s event).1 = (repo.UpdateEvent s event.ID event).1 ∧
      ((repo.UpdateEvent s event.ID event).2 = none →
        (EventService.UpdateEvent repo s event).2 = none) ∧
      ∀ e : ValidationError,
        (EventService.UpdateEvent repo s event).2 ≠ some (.validation e)) ∧
    (∀ e : ValidationError,
      (EventService.UpdateEvent repo s event).2 = some (.validation e) →
        e.Field = "id" ∨ e.Field = "user_id" ∨ e.Field = "text") := by
  refine ⟨?_, ?_, ?_, ?_, ?_⟩
  · intro h
    simp [EventService.UpdateEvent, h]
  · intro h1 h2
    simp [EventService.UpdateEvent, h1, h2]
  · intro h1 h2 h3
    simp [EventService.UpdateEvent, h1, h2, h3]
  · intro h1 h2 h3
    simp only [EventService.UpdateEvent, h1, h2, h3, if_false]
    rcases hr : repo.UpdateEvent s event.ID event with ⟨s1, _ | msg⟩
    · simp
    · by_cases hm : msg = "event not found" <;> simp [hm]
  · intro e he
    by_cases h1 : event.ID = 0
    · simp only [EventService.UpdateEvent, h1, if_true] at he
      cases he
      exact Or.inl rfl
    · by_cases h2 : event.UserID = 0
      · simp only [EventService.UpdateEvent, h1, h2, if_true, if_false] at he
        cases he
        exact Or.inr (Or.inl rfl)
      · by_cases h3 : event.Text = ""
        · simp only [EventService.UpdateEvent, h1, h2, h3, if_true, if_false] at he
          cases he
          exact Or.inr (Or.inr rfl)
        · simp only [EventService.UpdateEvent, h1, h2, h3, if_false] at he
          rcases hr : repo.UpdateEvent s event.ID event with ⟨s1, _ | msg⟩
          · rw [hr] at he
            simp at he
          · rw [hr] at he
            by_cases hm : msg = "event not found" <;> simp [hm] at he

/-- C13: over the in-memory store, service `UpdateEvent` with an event that
passes the checks and whose `ID` is not live returns the `BusinessError` with
operation "update_event" and message "event not found", and service
`DeleteEvent` with a non-zero id that is not live returns the `BusinessError`
with operation "delete_event" and message "event not found"; the store is
left as it was. -/
theorem service_not_found_is_business_error (r : MemoryRepository) (event : Event)
    (id : Int) :
    (event.ID ≠ 0 → event.UserID ≠ 0 → event.Text ≠ "" → live r event.ID = false →
      EventService.UpdateEvent New r event =
        (r, some (.business
          { Operation := "update_event", Message := "event not found" }))) ∧
    (id ≠ 0 → live r id = false →
      EventService.DeleteEvent New r id =
        (r, some (.business
          { Operation := "delete_event", Message := "event not found" }))) := by
  constructor
  · intro h1 h2 h3 h4
    simp [EventService.UpdateEvent, New, L218.UpdateEvent, h1, h2, h3, h4]
  · intro h1 h2
    simp [EventService.DeleteEvent, New, L218.DeleteEvent, h1, h2]

/-- C14: service `DeleteEvent` returns a `ValidationError` exactly when the id
is 0; it is then the one for field "id" with message "event ID is required",
and the store is returned as it was, whatever the store implementation
would have done.  Over the in-memory store, with a non-zero live id it
returns no error, the id is no longer live and nothing else changes. -/
theorem service_deleteEvent_validates_id {σ : Type} (repo : Repository σ) (s : σ)
    (r : MemoryRepository) (id : Int) :
    ((∃ e : ValidationError,
        (EventService.DeleteEvent repo s id).2 = some (.validation e)) ↔ id = 0) ∧
    (id = 0 → EventService.DeleteEvent repo s id =
      (s, some (.validation { Field := "id", Message := "event ID is required" }))) ∧
    (id ≠ 0 → live r id = true →
      (EventService.DeleteEvent New r id).2 = none ∧
      (∀ k, (EventService.DeleteEvent New r id).1.events.lookup k =
        if k = id then none else r.events.lookup k) ∧
      (EventService.DeleteEvent New r id).1.nextID = r.nextID) := by
  refine ⟨⟨?_, ?_⟩, ?_, ?_⟩
  · rintro ⟨e, he⟩
    by_contra h
    simp only [EventService.DeleteEvent, h, if_false] at he
    rcases hr : repo.DeleteEvent s id with ⟨s1, _ | msg⟩
    · rw [hr] at he
      simp at he
    · rw [hr] at he
      by_cases hm : msg = "event not found" <;> simp [hm] at he
  · intro h
    exact ⟨{ Field := "id", Message := "event ID is required" },
      by simp [EventService.DeleteEvent, h]⟩
  · intro h
    simp [EventService.DeleteEvent, h]
  · intro h1 h2
    have hd : EventService.DeleteEvent New r id =
        ({ r with events := r.events.erase id }, none) := by
      simp [EventService.DeleteEvent, New, L218.DeleteEvent, h1, h2]
    rw [hd]
    refine ⟨rfl, ?_, rfl⟩
    intro k
    by_cases hk : k = id
    · subst hk
      simp [AList.lookup_erase]
    · simp [hk, AList.lookup_erase_ne hk]

/-- C18: `handleError` answers a `ValidationError` with status 400, a
`BusinessError` with 503 and an `InternalError` with 500, each time with the
text of `Error()`, and an error of any other type with status 500 and the
text "Internal server error".  Every error returned by service `CreateEvent`,
`UpdateEvent` and `DeleteEvent`, over any store implementation, is of one of
the three named types. -/
theorem handleError_maps_kinds {σ : Type} (repo : Repository σ) (s : σ) (event : Event)
    (id : Int) :
    (∀ e : ValidationError,
      EventHandler.handleError (.validation e) =
        .error ("validation error: " ++ e.Field ++ " - " ++ e.Message) 400) ∧
    (∀ e : BusinessError,
      EventHandler.handleError (.business e) =
        .error ("business error: " ++ e.Operation ++ " - " ++ e.Message) 503) ∧
    (∀ e : InternalError,
      EventHandler.handleError (.internal e) =
        .error ("internal error: " ++ e.Operation ++ " - " ++ e.Message) 500) ∧
    (∀ text : String,
      EventHandler.handleError (.other text) = .error "Internal server error" 500) ∧
    (∀ text : String,
      (EventService.CreateEvent repo s event).2.2 ≠ some (.other text) ∧
      (EventService.UpdateEvent repo s event).2 ≠ some (.other text) ∧
      (EventService.DeleteEvent repo s id).2 ≠ some (.other text)) := by
  refine ⟨fun _ => rfl, fun _ => rfl, fun _ => rfl, fun _ => rfl, ?_⟩
  intro text
  refine ⟨?_, ?_, ?_⟩
  · unfold EventService.CreateEvent
    split_ifs
    · simp
    · simp
    · simp
    · rcases hr : repo.CreateEvent s event with ⟨s1, event1, _ | msg⟩ <;> simp
  · unfold EventService.UpdateEvent
    split_ifs
    · simp
    · simp
    · simp
    · rcases hr : repo.UpdateEvent s event.ID event with ⟨s1, _ | msg⟩
      · simp
      · by_cases hm : msg = "event not found" <;> simp [hm]
  · unfold EventService.DeleteEvent
    split_ifs
    · simp
    · rcases hr : repo.DeleteEvent s id with ⟨s1, _ | msg⟩
      · simp
      · by_cases hm : msg = "event not found" <;> simp [hm]

/-! ## Service: what the checks guarantee about stored records -/

theorem owner_and_text_apply (r : MemoryRepository) (c : Call)
    (h : ∀ k v, r.events.lookup k = some v → v.UserID ≠ 0 ∧ v.Text ≠ "") :
    ∀ k v, (c.apply r).events.lookup k = some v → v.UserID ≠ 0 ∧ v.Text ≠ "" := by
  intro k v hk
  cases c with
  | create e =>
    simp only [Call.apply, EventService.CreateEvent] at hk
    split_ifs at hk with h1 h2 h3
    · exact h k v hk
    · exact h k v hk
    · exact h k v hk
    · simp only [New, L218.CreateEvent] at hk
      by_cases hkn : k = r.nextID
      · subst hkn
        rw [AList.lookup_insert] at hk
        cases hk
        exact ⟨h2, h1⟩
      · rw [AList.lookup_insert_ne hkn] at hk
        exact h k v hk
  | update e =>
    simp only [Call.apply, EventService.UpdateEvent] at hk
    split_ifs at hk with h1 h2 h3
    · exact h k v hk
    · exact h k v hk
    · exact h k v hk
    · simp only [New, L218.UpdateEvent] at hk
      cases hl : live r e.ID
      · simp only [hl, Bool.not_false, if_true] at hk
        exact h k v hk
      · simp only [hl, Bool.not_true, Bool.false_eq_true, if_false] at hk
        by_cases hkn : k = e.ID
        · subst hkn
          rw [AList.lookup_insert] at hk
          cases hk
          exact ⟨h2, h3⟩
        · rw [AList.lookup_insert_ne hkn] at hk
          exact h k v hk
  | delete id =>
    simp only [Call.apply, EventService.DeleteEvent] at hk
    split_ifs at hk with h1
    · exact h k v hk
    · simp only [New, L218.DeleteEvent] at hk
      cases hl : live r id
      · simp only [hl, Bool.not_false, if_true] at hk
        exact h k v hk
      · simp only [hl, Bool.not_true, Bool.false_eq_true, if_false] at hk
        by_cases hkn : k = id
        · subst hkn
          rw [AList.lookup_erase] at hk
          cases hk
        · rw [AList.lookup_erase_ne hkn] at hk
          exact h k v hk

theorem owner_and_text_serve (calls : List Call) : ∀ r : MemoryRepository,
    (∀ k v, r.events.lookup k = some v → v.UserID ≠ 0 ∧ v.Text ≠ "") →
      ∀ k v, (serve r calls).events.lookup k = some v → v.UserID ≠ 0 ∧ v.Text ≠ "" := by
  induction calls with
  | nil => intro r h; exact h
  | cons c calls ih =>
    intro r h
    exact ih _ (owner_and_text_apply r c h)

/-- C19: the date of a stored record can be the zero time.  On an empty store,
service `CreateEvent` of a valid event followed by service `UpdateEvent` of
the record under 1 with the zero time: the update is accepted without error
and the store then holds, under 1, a record whose date is the zero time. -/
theorem update_stores_zero_date :
    (EventService.UpdateEvent New (serve NewMemoryRepository [Call.create sampleEvent])
        zeroDateEvent).2 = none ∧
      (serve NewMemoryRepository
          [Call.create sampleEvent, Call.update zeroDateEvent]).events.lookup 1 =
        some zeroDateEvent ∧
      zeroDateEvent.Date.IsZero = true := by
  decide

/-- C20: after any sequence of service `CreateEvent`, `UpdateEvent` and
`DeleteEvent` calls on an empty in-memory store, successful or not, every
stored record has a user id other than 0 and a text other than the empty
string. -/
theorem stored_records_have_owner_and_text (calls : List Call) (k : Int) (v : Event)
    (h : (serve NewMemoryRepository calls).events.lookup k = some v) :
    v.UserID ≠ 0 ∧ v.Text ≠ "" := by
  refine owner_and_text_serve calls NewMemoryRepository ?_ k v h
  intro k v hk
  simp [NewMemoryRepository] at hk

theorem stored_records_have_owner_and_text_witness :
    (serve NewMemoryRepository
        [Call.create sampleEvent, Call.update { laterEvent with ID := 1 },
          Call.create { sampleEvent with Text := "" }]).events.lookup 1 =
        some { laterEvent with ID := 1 } ∧
      ({ laterEvent with ID := 1 } : Event).UserID ≠ 0 ∧
      ({ laterEvent with ID := 1 } : Event).Text ≠ "" :=
  ⟨by decide,
    stored_records_have_owner_and_text
      [Call.create sampleEvent, Call.update { laterEvent with ID := 1 },
        Call.create { sampleEvent with Text := "" }] 1 { laterEvent with ID := 1 }
      (by decide)⟩

/-! ## Calendar arithmetic of the handler -/

theorem norm_id (hi lo base : Int) (h0 : 0 ≤ lo) (h1 : lo < base) :
    norm hi lo base = (hi, lo) := by
  unfold norm
  simp only [show ¬ lo < 0 from not_lt.2 h0, if_false, show ¬ base ≤ lo from not_le.2 h1]

theorem daysSinceEpoch_eq (year : Int) :
    daysSinceEpoch year =
      365 * (year - 1) + (year - 1) / 4 - (year - 1) / 100 + (year - 1) / 400 := by
  unfold daysSinceEpoch
  simp only []
  omega

theorem clock_spec (t : Time) :
    0 ≤ t.Clock.1 ∧ t.Clock.1 < 24 ∧ 0 ≤ t.Clock.2.1 ∧ t.Clock.2.1 < 60 ∧
      0 ≤ t.Clock.2.2 ∧ t.Clock.2.2 < 60 ∧
      t.Clock.1 * 3600 + t.Clock.2.1 * 60 + t.Clock.2.2 = t.abs % 86400 := by
  simp only [Time.Clock]
  omega

theorem monthDay_month_bounds (y yd : Int) (h0 : 0 ≤ yd)
    (h1 : yd < 365 ∨ yd = 365 ∧ isLeap y = true) :
    1 ≤ (monthDay y yd).1 ∧ (monthDay y yd).1 ≤ 12 := by
  unfold monthDay
  cases hl : isLeap y
  · have hyd : yd < 365 := by
      rcases h1 with h | ⟨_, h⟩
      · exact h
      · rw [hl] at h; exact absurd h (by simp)
    simp only [Bool.false_and, Bool.false_eq_true, if_false]
    generalize hp : (if daysBefore (yd / 31 + 1) ≤ yd
        then (yd / 31 + 2, yd - daysBefore (yd / 31 + 1) + 1)
        else (yd / 31 + 1, yd - daysBefore (yd / 31) + 1)) = p
    obtain ⟨-, e2, e3, -⟩ := monthDay_arith yd p h0 hyd hp
    exact ⟨e2, e3⟩
  · simp only [Bool.true_and, beq_iff_eq, decide_eq_true_eq]
    by_cases h59 : yd = 59
    · simp [h59]
    · rw [if_neg h59]
      by_cases hgt : 59 < yd
      · simp only [if_pos hgt]
        generalize hp : (if daysBefore ((yd - 1) / 31 + 1) ≤ yd - 1
            then ((yd - 1) / 31 + 2, yd - 1 - daysBefore ((yd - 1) / 31 + 1) + 1)
            else ((yd - 1) / 31 + 1, yd - 1 - daysBefore ((yd - 1) / 31) + 1)) = p
        obtain ⟨-, e2, e3, -⟩ := monthDay_arith (yd - 1) p (by omega) (by omega) hp
        exact ⟨e2, e3⟩
      · simp only [if_neg hgt]
        generalize hp : (if daysBefore (yd / 31 + 1) ≤ yd
            then (yd / 31 + 2, yd - daysBefore (yd / 31 + 1) + 1)
            else (yd / 31 + 1, yd - daysBefore (yd / 31) + 1)) = p
        obtain ⟨-, e2, e3, -⟩ := monthDay_arith yd p h0 (by omega) hp
        exact ⟨e2, e3⟩

theorem date_month_bounds (t : Time) : 1 ≤ t.Date.2.1 ∧ t.Date.2.1 ≤ 12 := by
  obtain ⟨-, a2, a3⟩ := yearDay_spec t.days
  exact monthDay_month_bounds _ _ a2 (by rw [isLeap_iff]; omega)

theorem date_parts (t : Time) :
    t.days = daysSinceEpoch t.Date.1 + daysBefore (t.Date.2.1 - 1) +
      (if isLeap t.Date.1 && decide (3 ≤ t.Date.2.1) then 1 else 0) + (t.Date.2.2 - 1) := by
  obtain ⟨a1, a2, a3⟩ := yearDay_spec t.days
  have hm := monthDay_spec (yearDay t.days).1 (yearDay t.days).2 a2
    (by rw [isLeap_iff]; omega)
  rw [daysSinceEpoch_eq]
  simp only [Time.Date, Bool.and_eq_true, decide_eq_true_eq]
  omega

theorem addDate_days (t : Time) (k : Int) :
    t.AddDate 0 0 k = t.Add (k * 86400000000000) := by
  obtain ⟨c1, c2, c3, c4, c5, c6, c7⟩ := clock_spec t
  obtain ⟨m1, m2⟩ := date_month_bounds t
  have hp := date_parts t
  have hn : 0 ≤ t.nsec ∧ t.nsec < 1000000000 := by simp only [Time.nsec]; omega
  simp only [Time.AddDate, Date, add_zero]
  rw [norm_id _ (t.Date.2.1 - 1) 12 (by omega) (by omega), norm_id _ t.nsec _ hn.1 hn.2,
    norm_id _ _ 60 c5 c6, norm_id _ _ 60 c3 c4, norm_id _ _ 24 c1 c2]
  simp only [Time.Add, sub_add_cancel]
  generalize (if isLeap t.Date.1 && decide (3 ≤ t.Date.2.1) then (1 : Int) else 0) = adj
    at hp ⊢
  simp only [Time.days, Time.abs, Time.nsec] at *
  congr 1
  omega

theorem weekday_eq (t : Time) : t.Weekday = (t.days + 1) % 7 := by
  simp only [Time.Weekday, Time.days, Time.abs]
  omega

theorem days_add_days (t : Time) (k : Int) :
    (t.Add (k * 86400000000000)).days = t.days + k := by
  simp only [Time.Add, Time.days]
  omega

theorem weekStartLoop_spec (n : Nat) : ∀ (fuel : Nat) (t : Time),
    (t.Weekday + 6) % 7 = (n : Int) → n < fuel →
      EventHandler.weekStartLoop fuel t = some (t.Add (-(n : Int) * 86400000000000)) := by
  induction n with
  | zero =>
    intro fuel t hw hf
    obtain ⟨f, rfl⟩ : ∃ f, fuel = f + 1 := ⟨fuel - 1, by omega⟩
    have hwd := weekday_eq t
    have hmon : t.Weekday = 1 := by
      push_cast at hw
      omega
    simp [EventHandler.weekStartLoop, hmon, Time.Add]
  | succ n ih =>
    intro fuel t hw hf
    obtain ⟨f, rfl⟩ : ∃ f, fuel = f + 1 := ⟨fuel - 1, by omega⟩
    have hwd := weekday_eq t
    push_cast at hw
    have hmon : t.Weekday ≠ 1 := by omega
    simp only [EventHandler.weekStartLoop, hmon, ne_eq, not_false_eq_true, if_true]
    rw [addDate_days, ih f _ ?_ (by omega)]
    · simp only [Time.Add, Option.some.injEq, Time.mk.injEq, and_true]
      push_cast
      ring
    · rw [weekday_eq, days_add_days]
      omega

theorem yearDay_unique_arith (d n400 d1 c n100 d2 n4 d3 q n1 y yd : Int)
    (h1 : n400 = d / 146097) (h2 : d1 = d - 146097 * n400) (h3 : c = d1 / 36524)
    (h4 : n100 = c - c / 4) (h5 : d2 = d1 - 36524 * n100) (h6 : n4 = d2 / 1461)
    (h7 : d3 = d2 - 1461 * n4) (h8 : q = d3 / 365) (h9 : n1 = q - q / 4)
    (h : d = 365 * (y - 1) + (y - 1) / 4 - (y - 1) / 100 + (y - 1) / 400 + yd)
    (h0 : 0 ≤ yd) (hl : yd < 365 ∨ yd = 365 ∧ y % 4 = 0 ∧ (y % 100 ≠ 0 ∨ y % 400 = 0)) :
    400 * n400 + 100 * n100 + 4 * n4 + n1 + 1 = y ∧ d3 - 365 * n1 = yd := by
  have ea : 0 ≤ (y - 1) % 400 ∧ (y - 1) % 400 < 400 := by omega
  have k400 : n400 = (y - 1) / 400 := by omega
  have r1 : d1 = 365 * ((y - 1) % 400) + ((y - 1) % 400) / 4 - ((y - 1) % 400) / 100 + yd := by
    omega
  have hl2 : yd < 365 ∨ yd = 365 ∧ ((y - 1) % 400) % 4 = 3 ∧
      (((y - 1) % 400) % 100 ≠ 99 ∨ (y - 1) % 400 = 399) := by omega
  have hy : y = 400 * n400 + (y - 1) % 400 + 1 := by omega
  generalize (y - 1) % 400 = w at *
  have b1 : 0 ≤ d1 ∧ d1 ≤ 146096 := by omega
  have hc : c = w / 100 ∨ (c = 4 ∧ w / 100 = 3) := by omega
  have k100 : n100 = w / 100 := by omega
  have r2 : d2 = 365 * (w % 100) + (w % 100) / 4 + yd := by omega
  have k4 : n4 = (w % 100) / 4 := by omega
  have r3 : d3 = 365 * (w % 4) + yd := by omega
  have hq : q = w % 4 ∨ (q = 4 ∧ w % 4 = 3) := by omega
  have k1 : n1 = w % 4 := by omega
  constructor <;> omega

theorem yearDay_unique (n y yd : Int)
    (h : n = 365 * (y - 1) + (y - 1) / 4 - (y - 1) / 100 + (y - 1) / 400 + yd)
    (h0 : 0 ≤ yd) (hl : yd < 365 ∨ yd = 365 ∧ y % 4 = 0 ∧ (y % 100 ≠ 0 ∨ y % 400 = 0)) :
    yearDay n = (y, yd) := by
  obtain ⟨e1, e2⟩ := yearDay_unique_arith n _ _ _ _ _ _ _ _ _ y yd
    rfl rfl rfl rfl rfl rfl rfl rfl rfl h h0 hl
  exact Prod.ext e1 e2

theorem monthDay_first (y m : Int) (h1 : 1 ≤ m) (h2 : m ≤ 12) :
    monthDay y (daysBefore (m - 1) + (if isLeap y && decide (3 ≤ m) then 1 else 0)) =
      (m, 1) := by
  have hcases : m = 1 ∨ m = 2 ∨ m = 3 ∨ m = 4 ∨ m = 5 ∨ m = 6 ∨ m = 7 ∨ m = 8 ∨ m = 9 ∨
      m = 10 ∨ m = 11 ∨ m = 12 := by omega
  cases hl : isLeap y <;>
    rcases hcases with h | h | h | h | h | h | h | h | h | h | h | h <;> subst h <;>
    simp [monthDay, hl, daysBefore]

theorem daysBefore_bounds (m : Int) (h1 : 1 ≤ m) (h2 : m ≤ 12) :
    0 ≤ daysBefore (m - 1) ∧ daysBefore (m - 1) ≤ 334 := by
  have hcases : m = 1 ∨ m = 2 ∨ m = 3 ∨ m = 4 ∨ m = 5 ∨ m = 6 ∨ m = 7 ∨ m = 8 ∨ m = 9 ∨
      m = 10 ∨ m = 11 ∨ m = 12 := by omega
  rcases hcases with h | h | h | h | h | h | h | h | h | h | h | h <;> subst h <;>
    simp [daysBefore]

theorem date_first_eq (y m off : Int) (h1 : 1 ≤ m) (h2 : m ≤ 12) :
    Date y m 1 0 0 0 0 off =
      { ns := ((daysSinceEpoch y + daysBefore (m - 1) +
          (if isLeap y && decide (3 ≤ m) then 1 else 0)) * 86400 - off) * 1000000000,
        offset := off } := by
  simp only [Date]
  rw [norm_id y (m - 1) 12 (by omega) (by omega), norm_id 0 0 1000000000 (by omega) (by omega)]
  dsimp only
  rw [norm_id 0 0 60 (by omega) (by omega)]
  dsimp only
  rw [norm_id 0 0 60 (by omega) (by omega)]
  dsimp only
  rw [norm_id 1 0 24 (by omega) (by omega)]
  simp

theorem date_first_spec (y m off : Int) (h1 : 1 ≤ m) (h2 : m ≤ 12) :
    (Date y m 1 0 0 0 0 off).Date = (y, m, 1) ∧ (Date y m 1 0 0 0 0 off).Clock = (0, 0, 0) ∧
      (Date y m 1 0 0 0 0 off).nsec = 0 ∧ (Date y m 1 0 0 0 0 off).offset = off := by
  rw [date_first_eq y m off h1 h2]
  obtain ⟨b1, b2⟩ := daysBefore_bounds m h1 h2
  have hF := daysSinceEpoch_eq y
  have hadj : (if isLeap y && decide (3 ≤ m) then (1 : Int) else 0) = 0 ∨
      (if isLeap y && decide (3 ≤ m) then (1 : Int) else 0) = 1 := by
    split <;> simp
  have hyd := monthDay_first y m h1 h2
  generalize (if isLeap y && decide (3 ≤ m) then (1 : Int) else 0) = adj at *
  generalize hB : daysBefore (m - 1) = B at *
  generalize hS : daysSinceEpoch y = S at *
  have hdays : (({ ns := ((S + B + adj) * 86400 - off) * 1000000000, offset := off } :
      Time)).days = S + B + adj := by
    simp only [Time.days]
    omega
  refine ⟨?_, ?_, ?_, rfl⟩
  · simp only [Time.Date, hdays]
    rw [yearDay_unique (S + B + adj) y (B + adj) (by omega) (by omega) (by omega)]
    simp only [hyd]
  · simp only [Time.Clock, Time.abs]
    have : ((S + B + adj) * 86400 - off) * 1000000000 / 1000000000 + off =
        (S + B + adj) * 86400 := by omega
    rw [this]
    have h0 : (S + B + adj) * 86400 % 86400 = 0 := by omega
    rw [h0]
    simp
  · simp only [Time.nsec]
    omega

theorem date_month_13 (y off : Int) :
    Date y 13 1 0 0 0 0 off = Date (y + 1) 1 1 0 0 0 0 off := by
  simp [Date, norm]

theorem addDate_month_first (y m off : Int) (h1 : 1 ≤ m) (h2 : m ≤ 12) :
    (Date y m 1 0 0 0 0 off).AddDate 0 1 0 =
      if m = 12 then Date (y + 1) 1 1 0 0 0 0 off else Date y (m + 1) 1 0 0 0 0 off := by
  obtain ⟨e1, e2, e3, e4⟩ := date_first_spec y m off h1 h2
  simp only [Time.AddDate, e1, e2, e3, e4, add_zero]
  split
  · rename_i h
    subst h
    exact date_month_13 y off
  · rfl

theorem userEvents_eq (events : List Event) (u : Int) :
    EventHandler.userEvents events u = events.filter (fun e => decide (e.UserID = u)) := by
  have h := foldl_collect (fun e : Event => decide (e.UserID = u)) (fun e => e) events []
  simp only [List.nil_append, List.map_id', decide_eq_true_eq] at h
  simp only [EventHandler.userEvents, h]

theorem getEventsForDay_eq (r : MemoryRepository) (date : Time) (u : Int) :
    EventHandler.GetEventsForDay New r date u =
      .events ((GetEventDay r date).1.filter (fun e => decide (e.UserID = u))) := by
  simp only [EventHandler.GetEventsForDay, EventService.GetEventsDay, New, GetEventDay,
    userEvents_eq]

theorem weekStartLoop_enough (extra : Nat) (t : Time) :
    EventHandler.weekStartLoop (7 + extra) t =
      some (t.Add (-((t.Weekday + 6) % 7) * 86400000000000)) := by
  have hw := weekday_eq t
  have h := weekStartLoop_spec ((t.Weekday + 6) % 7).toNat (7 + extra) t
    (by omega) (by omega)
  rw [h]
  congr 3
  omega

theorem getEventsForWeek_eq (extra : Nat) (r : MemoryRepository) (date : Time) (u : Int) :
    EventHandler.GetEventsForWeek (7 + extra) New r date u =
      some (.events ((GetEventWeek r
        (date.Add (-((date.Weekday + 6) % 7) * 86400000000000))
        ((date.Add (-((date.Weekday + 6) % 7) * 86400000000000)).Add
          (7 * 86400000000000))).1.filter (fun e => decide (e.UserID = u)))) := by
  simp only [EventHandler.GetEventsForWeek, weekStartLoop_enough, addDate_days,
    EventService.GetEventsWeek, New, GetEventWeek, userEvents_eq]

theorem getEventsForMonth_eq (r : MemoryRepository) (date : Time) (u : Int) :
    EventHandler.GetEventsForMonth New r date u =
      .events ((GetEventMonth r (Date date.Year date.Month 1 0 0 0 0 date.offset)
        (((Date date.Year date.Month 1 0 0 0 0 date.offset).AddDate 0 1 0).Add (-1))).1.filter
          (fun e => decide (e.UserID = u))) := by
  simp only [EventHandler.GetEventsForMonth, EventService.GetEventsMonth, New, GetEventMonth,
    GetEventWeek, userEvents_eq]

/-! ## Listings of the handler -/

/-- C15: for every store, date `d` and user id `u`, `GetEventsForDay` answers
with the result of the day query of the store for `d`, restricted to the
events of user `u`, their order kept; the list is ascending by instant and
holds exactly the stored records of user `u` that fall on the day of `d`.
After A, B and C of the scenario have been created on an empty store, the
listing for 2024-01-15 and user 1 is A, B and the one for 2024-01-16 is C. -/
theorem getEventsForDay_lists_user_events (r : MemoryRepository) (d : Time) (u : Int) :
    EventHandler.GetEventsForDay New r d u =
        .events ((GetEventDay r d).1.filter (fun e => decide (e.UserID = u))) ∧
      ((GetEventDay r d).1.filter (fun e => decide (e.UserID = u))).Pairwise
        (fun a b => b.Date.Before a.Date = false) ∧
      (∀ x, x ∈ (GetEventDay r d).1.filter (fun e => decide (e.UserID = u)) ↔
        (∃ k, r.events.lookup k = some x) ∧ x.Date.Date = d.Date ∧ x.UserID = u) ∧
      EventHandler.GetEventsForDay New scenarioStore (Date 2024 1 15 0 0 0 0 0) 1 =
        .events [{ eventA with ID := 1 }, { eventB with ID := 2 }] ∧
      EventHandler.GetEventsForDay New scenarioStore (Date 2024 1 16 0 0 0 0 0) 1 =
        .events [{ eventC with ID := 3 }] := by
  refine ⟨getEventsForDay_eq r d u, ?_, ?_, by decide, by decide⟩
  · exact (sortEventsByDate_sorted _).sublist (List.filter_sublist _)
  · intro x
    rw [List.mem_filter, getEventDay_mem]
    simp [and_assoc]

/-- C16: the week listing is closed at its end.  `GetEventsForWeek` leaves its
loop (7 tests of the condition are enough) with `weekStart` the Monday on or
before `d`, at the time of day of `d`, and answers with exactly the stored
records of user `u` whose instant `t` satisfies
`weekStart <= t <= weekStart + 7 days`.  So an event at exactly
`weekStart + 7 days` is listed: with an event of user 1 at
2024-01-22T00:00:00Z in the store, the listing for Monday 2024-01-15 and
user 1 returns it. -/
theorem getEventsForWeek_includes_week_end (extra : Nat) (r : MemoryRepository) (d : Time)
    (u : Int) :
    EventHandler.GetEventsForWeek (7 + extra) New r d u =
        some (.events ((GetEventWeek r
          (d.Add (-((d.Weekday + 6) % 7) * 86400000000000))
          ((d.Add (-((d.Weekday + 6) % 7) * 86400000000000)).Add
            (7 * 86400000000000))).1.filter (fun e => decide (e.UserID = u)))) ∧
      (d.Add (-((d.Weekday + 6) % 7) * 86400000000000)).Weekday = 1 ∧
      (∀ x, x ∈ (GetEventWeek r
          (d.Add (-((d.Weekday + 6) % 7) * 86400000000000))
          ((d.Add (-((d.Weekday + 6) % 7) * 86400000000000)).Add
            (7 * 86400000000000))).1.filter (fun e => decide (e.UserID = u)) ↔
        (∃ k, r.events.lookup k = some x) ∧ x.UserID = u ∧
          (d.Add (-((d.Weekday + 6) % 7) * 86400000000000)).ns ≤ x.Date.ns ∧
          x.Date.ns ≤
            (d.Add (-((d.Weekday + 6) % 7) * 86400000000000)).ns + 7 * 86400000000000) ∧
      (Date 2024 1 15 0 0 0 0 0).Weekday = 1 ∧
      nextMondayEvent.Date = (Date 2024 1 15 0 0 0 0 0).Add (7 * 86400000000000) ∧
      EventHandler.GetEventsForWeek 7 New
          (serve NewMemoryRepository [Call.create nextMondayEvent])
          (Date 2024 1 15 0 0 0 0 0) 1 =
        some (.events [{ nextMondayEvent with ID := 1 }]) := by
  refine ⟨getEventsForWeek_eq extra r d u, ?_, ?_, by decide, by decide, by decide⟩
  · have hw := weekday_eq d
    rw [weekday_eq, days_add_days]
    omega
  · intro x
    rw [List.mem_filter, getEventWeek_mem]
    simp only [Time.Before, Time.After, Time.Add, decide_eq_false_iff_not, not_lt,
      decide_eq_true_eq]
    constructor
    · rintro ⟨⟨hk, h1, h2⟩, hu⟩
      exact ⟨hk, hu, h1, h2⟩
    · rintro ⟨hk, hu, h1, h2⟩
      exact ⟨⟨hk, h1, h2⟩, hu⟩

/-- C17: for every date `d`, `GetEventsForMonth` queries the store from
`monthStart`, which is 00:00:00 on day 1 of the month of `d` in the location
of `d`, to `monthEnd`, which is one nanosecond before 00:00:00 on day 1 of the
following month (January of the next year after December).  It answers with
exactly the stored records of user `u` whose instant `t` satisfies
`monthStart <= t < start of the following month`. -/
theorem getEventsForMonth_lists_the_month (r : MemoryRepository) (d : Time) (u : Int) :
    EventHandler.GetEventsForMonth New r d u =
        .events ((GetEventMonth r (Date d.Year d.Month 1 0 0 0 0 d.offset)
          (((Date d.Year d.Month 1 0 0 0 0 d.offset).AddDate 0 1 0).Add (-1))).1.filter
            (fun e => decide (e.UserID = u))) ∧
      (Date d.Year d.Month 1 0 0 0 0 d.offset).Date = (d.Year, d.Month, 1) ∧
      (Date d.Year d.Month 1 0 0 0 0 d.offset).Clock = (0, 0, 0) ∧
      (Date d.Year d.Month 1 0 0 0 0 d.offset).nsec = 0 ∧
      ((Date d.Year d.Month 1 0 0 0 0 d.offset).AddDate 0 1 0).Date =
        (if d.Month = 12 then (d.Year + 1, 1, 1) else (d.Year, d.Month + 1, 1)) ∧
      ((Date d.Year d.Month 1 0 0 0 0 d.offset).AddDate 0 1 0).Clock = (0, 0, 0) ∧
      ((Date d.Year d.Month 1 0 0 0 0 d.offset).AddDate 0 1 0).nsec = 0 ∧
      (((Date d.Year d.Month 1 0 0 0 0 d.offset).AddDate 0 1 0).Add (-1)).ns =
        ((Date d.Year d.Month 1 0 0 0 0 d.offset).AddDate 0 1 0).ns - 1 ∧
      (∀ x, x ∈ (GetEventMonth r (Date d.Year d.Month 1 0 0 0 0 d.offset)
          (((Date d.Year d.Month 1 0 0 0 0 d.offset).AddDate 0 1 0).Add (-1))).1.filter
            (fun e => decide (e.UserID = u)) ↔
        (∃ k, r.events.lookup k = some x) ∧ x.UserID = u ∧
          (Date d.Year d.Month 1 0 0 0 0 d.offset).ns ≤ x.Date.ns ∧
          x.Date.ns < ((Date d.Year d.Month 1 0 0 0 0 d.offset).AddDate 0 1 0).ns) := by
  obtain ⟨m1, m2⟩ := date_month_bounds d
  have hm1 : 1 ≤ d.Month := m1
  have hm2 : d.Month ≤ 12 := m2
  obtain ⟨e1, e2, e3, -⟩ := date_first_spec d.Year d.Month d.offset hm1 hm2
  have hnext := addDate_month_first d.Year d.Month d.offset hm1 hm2
  refine ⟨getEventsForMonth_eq r d u, e1, e2, e3, ?_, ?_, ?_, ?_, ?_⟩
  · rw [hnext]
    split
    · exact (date_first_spec (d.Year + 1) 1 d.offset (by omega) (by omega)).1
    · exact (date_first_spec d.Year (d.Month + 1) d.offset (by omega) (by omega)).1
  · rw [hnext]
    split
    · exact (date_first_spec (d.Year + 1) 1 d.offset (by omega) (by omega)).2.1
    · exact (date_first_spec d.Year (d.Month + 1) d.offset (by omega) (by omega)).2.1
  · rw [hnext]
    split
    · exact (date_first_spec (d.Year + 1) 1 d.offset (by omega) (by omega)).2.2.1
    · exact (date_first_spec d.Year (d.Month + 1) d.offset (by omega) (by omega)).2.2.1
  · simp only [Time.Add]
    omega
  · intro x
    rw [List.mem_filter]
    simp only [GetEventMonth]
    rw [getEventWeek_mem]
    simp only [Time.Before, Time.After, Time.Add, decide_eq_false_iff_not, not_lt,
      decide_eq_true_eq]
    constructor
    · rintro ⟨⟨hk, h1, h2⟩, hu⟩
      exact ⟨hk, hu, h1, by omega⟩
    · rintro ⟨hk, hu, h1, h2⟩
      exact ⟨⟨hk, h1, by omega⟩, hu⟩

/-! ## The search for the start of the week -/

theorem stepBack_iterate (j : Nat) (t : Time) :
    (fun w : Time => w.AddDate 0 0 (-1))^[j] t = t.Add (-(j : Int) * 86400000000000) := by
  induction j generalizing t with
  | zero => simp [Time.Add]
  | succ j ih =>
    rw [Function.iterate_succ_apply, addDate_days, ih]
    simp only [Time.Add, Time.mk.injEq, and_true]
    push_cast
    ring

/-- C23: the loop of `GetEventsForWeek` that steps back one day at a time
until the weekday is Monday is left after `n` steps, where `n` is at most 6:
`n + 1` tests of its condition, hence 7 or more, are enough, and the first
`n` values are not Mondays.  The `weekStart` it ends with is a Monday with
`weekStart <= d < weekStart + 7 days`, and it is `d` when `d` is a Monday.
Times are taken in a location with a fixed offset. -/
theorem weekStart_search_terminates (extra : Nat) (d : Time) :
    ((d.Weekday + 6) % 7).toNat ≤ 6 ∧
      EventHandler.weekStartLoop (7 + extra) d =
        some ((fun w : Time => w.AddDate 0 0 (-1))^[((d.Weekday + 6) % 7).toNat] d) ∧
      EventHandler.weekStartLoop (((d.Weekday + 6) % 7).toNat + 1) d =
        some ((fun w : Time => w.AddDate 0 0 (-1))^[((d.Weekday + 6) % 7).toNat] d) ∧
      (∀ j, j < ((d.Weekday + 6) % 7).toNat →
        ((fun w : Time => w.AddDate 0 0 (-1))^[j] d).Weekday ≠ 1) ∧
      ((fun w : Time => w.AddDate 0 0 (-1))^[((d.Weekday + 6) % 7).toNat] d).Weekday = 1 ∧
      ((fun w : Time => w.AddDate 0 0 (-1))^[((d.Weekday + 6) % 7).toNat] d).ns ≤ d.ns ∧
      d.ns < ((fun w : Time => w.AddDate 0 0 (-1))^[((d.Weekday + 6) % 7).toNat] d).ns +
        7 * 86400000000000 ∧
      (d.Weekday = 1 →
        (fun w : Time => w.AddDate 0 0 (-1))^[((d.Weekday + 6) % 7).toNat] d = d) := by
  have hw := weekday_eq d
  have hn : (((d.Weekday + 6) % 7).toNat : Int) = (d.Weekday + 6) % 7 := by omega
  refine ⟨by omega, ?_, ?_, ?_, ?_, ?_, ?_, ?_⟩
  · rw [stepBack_iterate, hn]
    exact weekStartLoop_enough extra d
  · rw [stepBack_iterate]
    exact weekStartLoop_spec _ _ d hn.symm (by omega)
  · intro j hj
    rw [stepBack_iterate, weekday_eq, days_add_days]
    omega
  · rw [stepBack_iterate, weekday_eq, days_add_days]
    omega
  · rw [stepBack_iterate]
    simp only [Time.Add]
    omega
  · rw [stepBack_iterate]
    simp only [Time.Add]
    omega
  · intro h1
    rw [stepBack_iterate]
    have : ((d.Weekday + 6) % 7).toNat = 0 := by omega
    rw [this]
    simp [Time.Add]

/-! ## Reachable stores and failed calls -/

theorem nextID_run (ops : List Op) : ∀ r : MemoryRepository,
    (run r ops).nextID = r.nextID + (creates ops : Int) := by
  induction ops with
  | nil => intro r; simp [run, creates]
  | cons op ops ih =>
    intro r
    have h : run r (op :: ops) = run (op.apply r) ops := rfl
    rw [h, ih]
    cases op with
    | create e =>
      simp only [Op.apply, CreateEvent, creates]
      push_cast
      ring
    | update id e =>
      simp only [Op.apply, UpdateEvent, creates]
      split <;> rfl
    | delete id =>
      simp only [Op.apply, DeleteEvent, creates]
      split <;> rfl

/-- C24: in every store reached from `NewMemoryRepository` by a sequence of
`CreateEvent`, `UpdateEvent` and `DeleteEvent` calls, successful or not,
every record carries as `ID` the key it is stored under, every live key `k`
satisfies `1 <= k < nextID`, and `nextID` is 1 plus the number of
`CreateEvent` calls made. -/
theorem reachable_stores_are_well_formed (ops : List Op) :
    (∀ (k : Int) (v : Event), (run NewMemoryRepository ops).events.lookup k = some v →
        v.ID = k ∧ 1 ≤ k ∧ k < (run NewMemoryRepository ops).nextID) ∧
      (run NewMemoryRepository ops).nextID = 1 + (creates ops : Int) := by
  refine ⟨(wellFormed_run ops _ wellFormed_new).2, ?_⟩
  rw [nextID_run]
  rfl

/-- C25: over the in-memory store, a call of service `CreateEvent`,
`UpdateEvent` or `DeleteEvent` that returns an error returns the store it was
given, records and `nextID` alike, and a failed `CreateEvent` returns the
event of the caller as it was, so no identifier is used up.  Over any store
implementation the same holds for a call that returns a `ValidationError`. -/
theorem failed_service_calls_change_nothing {σ : Type} (repo : Repository σ) (s : σ)
    (r : MemoryRepository) (event : Event) (id : Int) :
    ((EventService.CreateEvent New r event).2.2 ≠ none →
      (EventService.CreateEvent New r event).1 = r ∧
        (EventService.CreateEvent New r event).2.1 = event) ∧
    ((EventService.UpdateEvent New r event).2 ≠ none →
      (EventService.UpdateEvent New r event).1 = r) ∧
    ((EventService.DeleteEvent New r id).2 ≠ none →
      (EventService.DeleteEvent New r id).1 = r) ∧
    (∀ e : ValidationError,
      ((EventService.CreateEvent repo s event).2.2 = some (.validation e) →
        (EventService.CreateEvent repo s event).1 = s ∧
          (EventService.CreateEvent repo s event).2.1 = event) ∧
      ((EventService.UpdateEvent repo s event).2 = some (.validation e) →
        (EventService.UpdateEvent repo s event).1 = s) ∧
      ((EventService.DeleteEvent repo s id).2 = some (.validation e) →
        (EventService.DeleteEvent repo s id).1 = s)) := by
  refine ⟨?_, ?_, ?_, ?_⟩
  · unfold EventService.CreateEvent
    split_ifs <;> simp [New, L218.CreateEvent]
  · unfold EventService.UpdateEvent
    split_ifs
    · simp
    · simp
    · simp
    · simp only [New, L218.UpdateEvent]
      cases hl : live r event.ID <;> simp
  · unfold EventService.DeleteEvent
    split_ifs
    · simp
    · simp only [New, L218.DeleteEvent]
      cases hl : live r id <;> simp
  · intro e
    refine ⟨?_, ?_, ?_⟩
    · unfold EventService.CreateEvent
      split_ifs
      · simp
      · simp
      · simp
      · rcases hr : repo.CreateEvent s event with ⟨s1, event1, _ | msg⟩ <;> simp
    · unfold EventService.UpdateEvent
      split_ifs
      · simp
      · simp
      · simp
      · rcases hr : repo.UpdateEvent s event.ID event with ⟨s1, _ | msg⟩
        · simp
        · by_cases hm : msg = "event not found" <;> simp [hm]
    · unfold EventService.DeleteEvent
      split_ifs
      · simp
      · rcases hr : repo.DeleteEvent s id with ⟨s1, _ | msg⟩
        · simp
        · by_cases hm : msg = "event not found" <;> simp [hm]

/-! ## Records and pointers -/

theorem foldl_collect_gen {κ β : Type} (p : κ → Bool) (f : κ → β) (l : List κ) :
    ∀ init : List β,
      l.foldl (fun acc kv => if p kv then acc ++ [f kv] else acc) init =
        init ++ (l.filter p).map f := by
  induction l with
  | nil => intro init; simp
  | cons a l ih =>
    intro init
    rw [List.foldl_cons, ih]
    by_cases h : p a = true <;> simp [h]

theorem ptr_getEventDay_mem (m : Ptr.Store) (d : Time) (p : Nat)
    (h : p ∈ (Ptr.GetEventDay m d).1) : ∃ k, m.events.lookup k = some p := by
  simp only [Ptr.GetEventDay] at h
  have h2 := (sortSlice_perm _ _).mem_iff.1 h
  have h3 := foldl_collect_gen
    (fun kv : Sigma (fun _ : Int => Nat) => isSameDay (Ptr.deref m.heap kv.2).Date d)
    (fun kv => kv.2) m.events.entries []
  simp only [List.nil_append] at h3
  rw [h3] at h2
  obtain ⟨⟨k, v⟩, hkv, rfl⟩ := List.mem_map.1 h2
  exact ⟨k, AList.mem_lookup_iff.2 (List.mem_filter.1 hkv).1⟩

theorem ptr_getEventWeek_mem (m : Ptr.Store) (s e : Time) (p : Nat)
    (h : p ∈ (Ptr.GetEventWeek m s e).1) : ∃ k, m.events.lookup k = some p := by
  simp only [Ptr.GetEventWeek] at h
  have h2 := (sortSlice_perm _ _).mem_iff.1 h
  have h3 := foldl_collect_gen
    (fun kv : Sigma (fun _ : Int => Nat) =>
      ((Ptr.deref m.heap kv.2).Date.Equal s || (Ptr.deref m.heap kv.2).Date.After s) &&
        ((Ptr.deref m.heap kv.2).Date.Equal e || (Ptr.deref m.heap kv.2).Date.Before e))
    (fun kv => kv.2) m.events.entries []
  simp only [List.nil_append] at h3
  rw [h3] at h2
  obtain ⟨⟨k, v⟩, hkv, rfl⟩ := List.mem_map.1 h2
  exact ⟨k, AList.mem_lookup_iff.2 (List.mem_filter.1 hkv).1⟩

theorem swapLeft_map {α β : Type} (f : α → β) (less : β → β → Bool) (x : α) (l : List α) :
    (swapLeft (fun a b => less (f a) (f b)) x l).map f = swapLeft less (f x) (l.map f) := by
  induction l with
  | nil => rfl
  | cons y l ih =>
    simp only [swapLeft, List.map_cons]
    split
    · simp [ih]
    · simp

theorem sortSlice_map {α β : Type} (f : α → β) (less : β → β → Bool) (l : List α) :
    (sortSlice (fun a b => less (f a) (f b)) l).map f = sortSlice less (l.map f) := by
  unfold sortSlice
  rw [List.map_reverse]
  congr 1
  suffices h : ∀ acc : List α,
      (l.foldl (fun left x => swapLeft (fun a b => less (f a) (f b)) x left) acc).map f =
        (l.map f).foldl (fun left x => swapLeft less x left) (acc.map f) from h []
  induction l with
  | nil => intro acc; rfl
  | cons x l ih =>
    intro acc
    simp only [List.foldl_cons, List.map_cons]
    rw [ih, swapLeft_map]

theorem ptr_getEventDay_values (m : Ptr.Store) (d : Time) :
    (Ptr.GetEventDay m d).1.map (Ptr.deref m.heap) = (GetEventDay (Ptr.values m) d).1 := by
  have h3 := foldl_collect_gen
    (fun kv : Sigma (fun _ : Int => Nat) => isSameDay (Ptr.deref m.heap kv.2).Date d)
    (fun kv => kv.2) m.events.entries []
  simp only [List.nil_append] at h3
  simp only [Ptr.GetEventDay, h3]
  rw [sortSlice_map (Ptr.deref m.heap) (fun a b => a.Date.Before b.Date), getEventDay_fst]
  simp only [Ptr.values, sortEventsByDate, List.filter_map, List.map_map]
  rfl

theorem ptr_getEventWeek_values (m : Ptr.Store) (s e : Time) :
    (Ptr.GetEventWeek m s e).1.map (Ptr.deref m.heap) =
      (GetEventWeek (Ptr.values m) s e).1 := by
  have h3 := foldl_collect_gen
    (fun kv : Sigma (fun _ : Int => Nat) =>
      ((Ptr.deref m.heap kv.2).Date.Equal s || (Ptr.deref m.heap kv.2).Date.After s) &&
        ((Ptr.deref m.heap kv.2).Date.Equal e || (Ptr.deref m.heap kv.2).Date.Before e))
    (fun kv => kv.2) m.events.entries []
  simp only [List.nil_append] at h3
  simp only [Ptr.GetEventWeek, h3]
  rw [sortSlice_map (Ptr.deref m.heap) (fun a b => a.Date.Before b.Date), getEventWeek_fst]
  simp only [Ptr.values, sortEventsByDate, List.filter_map, List.map_map]
  rfl

/-- C22: the records returned by the queries are the stored records
themselves.  `CreateEvent` and `UpdateEvent` put a newly allocated record into
the map, whose pointer differs from the pointer of the caller.  But every
pointer returned by `GetEventDay`, `GetEventWeek` and `GetEventMonth` is a
pointer held by the map (the records behind them are what the queries on
values return), so an assignment of the caller through it changes the
store: after `CreateEvent` of `sampleEvent` on a fresh store, `GetEventDay`
returns pointer 1, which the map holds under identifier 1; once the caller
has set the text behind it, the next `GetEventDay` returns the changed
text. -/
theorem query_results_share_the_stored_records (m : Ptr.Store) (event : Nat) (id : Int)
    (d s e : Time) :
    (event < m.heap.length →
      (Ptr.CreateEvent m event).1.events.lookup m.nextID = some m.heap.length ∧
        m.heap.length ≠ event) ∧
    (event < m.heap.length → (m.events.lookup id).isSome = true →
      (Ptr.UpdateEvent m id event).1.events.lookup id = some m.heap.length ∧
        m.heap.length ≠ event) ∧
    (∀ p ∈ (Ptr.GetEventDay m d).1, ∃ k, m.events.lookup k = some p) ∧
    (∀ p ∈ (Ptr.GetEventWeek m s e).1, ∃ k, m.events.lookup k = some p) ∧
    (∀ p ∈ (Ptr.GetEventMonth m s e).1, ∃ k, m.events.lookup k = some p) ∧
    (Ptr.GetEventDay m d).1.map (Ptr.deref m.heap) = (GetEventDay (Ptr.values m) d).1 ∧
    (Ptr.GetEventWeek m s e).1.map (Ptr.deref m.heap) =
      (GetEventWeek (Ptr.values m) s e).1 ∧
    (Ptr.GetEventDay (Ptr.CreateEvent Ptr.fresh 0).1 sampleDate).1 = [1] ∧
    (Ptr.CreateEvent Ptr.fresh 0).1.events.lookup 1 = some 1 ∧
    (Ptr.GetEventDay (Ptr.CreateEvent Ptr.fresh 0).1 sampleDate).1.map
        (Ptr.deref (Ptr.CreateEvent Ptr.fresh 0).1.heap) =
      [{ sampleEvent with ID := 1 }] ∧
    (Ptr.GetEventDay
        (Ptr.assign (Ptr.CreateEvent Ptr.fresh 0).1 1
          { sampleEvent with ID := 1, Text := "changed by the caller" }) sampleDate).1.map
        (Ptr.deref (Ptr.assign (Ptr.CreateEvent Ptr.fresh 0).1 1
          { sampleEvent with ID := 1, Text := "changed by the caller" }).heap) =
      [{ sampleEvent with ID := 1, Text := "changed by the caller" }] := by
  refine ⟨?_, ?_, ptr_getEventDay_mem m d, ptr_getEventWeek_mem m s e,
    ptr_getEventWeek_mem m s e, ptr_getEventDay_values m d, ptr_getEventWeek_values m s e,
    by decide, by decide, by decide, by decide⟩
  · intro h
    refine ⟨?_, by omega⟩
    simp only [Ptr.CreateEvent, Ptr.deref, List.length_set]
    rw [List.getD_eq_getElem?_getD, List.getElem?_set_self h]
    simp [AList.lookup_insert]
  · intro h hl
    refine ⟨?_, by omega⟩
    simp [Ptr.UpdateEvent, hl, AList.lookup_insert]

/-! ## Interleavings of concurrent `CreateEvent` calls -/

theorem countP_set_add {α : Type} (p : α → Bool) (l : List α) (i : Nat) (a b : α)
    (h : l[i]? = some a) :
    List.countP p (l.set i b) + (if p a then 1 else 0) =
      List.countP p l + (if p b then 1 else 0) := by
  induction l generalizing i with
  | nil => simp at h
  | cons x l ih =>
    cases i with
    | zero =>
      simp only [List.getElem?_cons_zero, Option.some.injEq] at h
      subst h
      simp only [List.set_cons_zero, List.countP_cons]
      omega
    | succ i =>
      simp only [List.getElem?_cons_succ] at h
      simp only [List.set_cons_succ, List.countP_cons]
      have := ih i h
      omega

theorem pcSum_set (l : List Goroutine) (i : Nat) (a b : Goroutine) (h : l[i]? = some a) :
    ((l.set i b).map (fun g => g.pc)).sum + a.pc = (l.map (fun g => g.pc)).sum + b.pc := by
  induction l generalizing i with
  | nil => simp at h
  | cons x l ih =>
    cases i with
    | zero =>
      simp only [List.getElem?_cons_zero, Option.some.injEq] at h
      subst h
      simp only [List.set_cons_zero, List.map_cons, List.sum_cons]
      omega
    | succ i =>
      simp only [List.getElem?_cons_succ] at h
      simp only [List.set_cons_succ, List.map_cons, List.sum_cons]
      have := ih i h
      omega

theorem getElem?_set_cases {α : Type} {l : List α} {i j : Nat} {a b c : α}
    (hi : l[i]? = some a) (h : (l.set i b)[j]? = some c) :
    (j = i ∧ c = b) ∨ (j ≠ i ∧ l[j]? = some c) := by
  rw [List.getElem?_set] at h
  by_cases hij : i = j
  · subst hij
    have hlt : i < l.length := (List.getElem?_eq_some.1 hi).1
    simp only [if_true, hlt] at h
    exact Or.inl ⟨rfl, (Option.some.inj h).symm⟩
  · simp only [hij, if_false] at h
    exact Or.inr ⟨fun e => hij e.symm, h⟩

theorem inv_start (es : List Event) : Concurrent.Inv es (Concurrent.start es) := by
  have hpc : ∀ (j : Nat) (g : Goroutine), (Concurrent.start es).gs[j]? = some g →
      g.pc = 0 ∧ es[j]? = some g.event := by
    intro j g h
    simp only [Concurrent.start, List.getElem?_map] at h
    cases he : es[j]? with
    | none => rw [he] at h; simp at h
    | some e =>
      rw [he] at h
      simp only [Option.map_some', Option.some.injEq] at h
      subst h
      exact ⟨rfl, rfl⟩
  have hc : ∀ n : Nat, 1 ≤ n →
      (Concurrent.start es).gs.countP (fun g => decide (n ≤ g.pc)) = 0 := by
    intro n hn
    rw [List.countP_eq_zero]
    intro g hg
    obtain ⟨j, hj⟩ := List.mem_iff_getElem?.1 hg
    have := (hpc j g hj).1
    simp only [decide_eq_true_eq]
    omega
  refine ⟨?_, ?_, ?_, ?_, ?_, ?_, ?_, ?_, ?_, ?_⟩
  · intro j g h
    have := (hpc j g h).1
    omega
  · intro j g h h1
    have := (hpc j g h).1
    omega
  · intro i h
    simp [Concurrent.start] at h
  · intro j g h h2
    have := (hpc j g h).1
    omega
  · rw [hc 4 (by omega)]
    rfl
  · intro k
    rw [hc 3 (by omega)]
    simp only [Concurrent.start, NewMemoryRepository, AList.not_mem_empty, false_iff]
    push_cast
    omega
  · intro k v h
    simp [Concurrent.start, NewMemoryRepository] at h
  · intro j g h h3
    have := (hpc j g h).1
    omega
  · intro j g h
    exact ⟨g.event, (hpc j g h).2, rfl, rfl, rfl⟩
  · simp [Concurrent.start]

theorem step_cases (c c1 : Concurrent) (i : Nat) (hs : c.step i = some c1) :
    ∃ g : Goroutine, c.gs[i]? = some g ∧
      ((g.pc = 0 ∧ c.mu = none ∧
          c1 = { c with mu := some i, gs := c.gs.set i { g with pc := 1 } }) ∨
        (g.pc = 1 ∧ c1 = { c with
          gs := c.gs.set i { pc := 2, event := { g.event with ID := c.repo.nextID } } }) ∨
        (g.pc = 2 ∧ c1 = { c with
          repo := { c.repo with
            events := c.repo.events.insert g.event.ID
              { ID := g.event.ID, UserID := g.event.UserID, Date := g.event.Date,
                Text := g.event.Text } }
          gs := c.gs.set i { g with pc := 3 } }) ∨
        (g.pc = 3 ∧ c1 = { c with
          repo := { c.repo with nextID := c.repo.nextID + 1 }
          gs := c.gs.set i { g with pc := 4 } }) ∨
        (g.pc = 4 ∧ c1 = { c with mu := none, gs := c.gs.set i { g with pc := 5 } })) := by
  unfold Concurrent.step at hs
  cases hg : c.gs[i]? with
  | none => rw [hg] at hs; simp at hs
  | some g =>
    rw [hg] at hs
    refine ⟨g, rfl, ?_⟩
    simp only at hs
    split_ifs at hs with h0 hm h1 h2 h3 h4
    · exact Or.inl ⟨h0, hm, (Option.some.inj hs).symm⟩
    · exact Or.inr (Or.inl ⟨h1, (Option.some.inj hs).symm⟩)
    · exact Or.inr (Or.inr (Or.inl ⟨h2, (Option.some.inj hs).symm⟩))
    · exact Or.inr (Or.inr (Or.inr (Or.inl ⟨h3, (Option.some.inj hs).symm⟩)))
    · exact Or.inr (Or.inr (Or.inr (Or.inr ⟨h4, (Option.some.inj hs).symm⟩)))

theorem others_idle (es : List Event) (c : Concurrent) (h : Concurrent.Inv es c) (i : Nat)
    (hmu : c.mu = some i ∨ c.mu = none) (j : Nat) (g : Goroutine) (hj : c.gs[j]? = some g)
    (hne : j ≠ i) : g.pc = 0 ∨ g.pc = 5 := by
  have hb := h.bound j g hj
  by_contra hc
  have hx := h.excl j g hj (by omega) (by omega)
  rcases hmu with hmu | hmu
  · rw [hmu] at hx
    exact hne (Option.some.inj hx).symm
  · rw [hmu] at hx
    cases hx

theorem count_three_eq_four (es : List Event) (c : Concurrent) (h : Concurrent.Inv es c)
    (i : Nat) (g : Goroutine) (hg : c.gs[i]? = some g) (hpc : g.pc ≠ 3)
    (hmu : c.mu = some i ∨ c.mu = none) :
    c.gs.countP (fun g => decide (3 ≤ g.pc)) = c.gs.countP (fun g => decide (4 ≤ g.pc)) := by
  apply List.countP_congr
  intro x hx
  obtain ⟨j, hj⟩ := List.mem_iff_getElem?.1 hx
  simp only [decide_eq_true_eq]
  by_cases hji : j = i
  · subst hji
    rw [hg] at hj
    cases hj
    omega
  · have := others_idle es c h i hmu j x hj hji
    omega

theorem inv_lock (es : List Event) (c : Concurrent) (h : Concurrent.Inv es c) (i : Nat)
    (g : Goroutine) (hg : c.gs[i]? = some g) (hpc : g.pc = 0) (hmu : c.mu = none) :
    Concurrent.Inv es { c with mu := some i, gs := c.gs.set i { g with pc := 1 } } := by
  have hset : ∀ (j : Nat) (x : Goroutine),
      (c.gs.set i { g with pc := 1 })[j]? = some x →
        (j = i ∧ x = { g with pc := 1 }) ∨ (j ≠ i ∧ c.gs[j]? = some x) :=
    fun j x hx => getElem?_set_cases hg hx
  have h3 := countP_set_add (fun g => decide (3 ≤ g.pc)) c.gs i g { g with pc := 1 } hg
  have h4 := countP_set_add (fun g => decide (4 ≤ g.pc)) c.gs i g { g with pc := 1 } hg
  simp only [hpc, decide_eq_true_eq, show ¬ (3 ≤ 0) by omega, show ¬ (4 ≤ 0) by omega,
    show ¬ (3 ≤ 1) by omega, show ¬ (4 ≤ 1) by omega, if_false, add_zero] at h3 h4
  refine ⟨?_, ?_, ?_, ?_, ?_, ?_, ?_, ?_, ?_, ?_⟩
  · intro j x hx
    rcases hset j x hx with ⟨-, rfl⟩ | ⟨-, hx⟩
    · show 1 ≤ 5
      omega
    · exact h.bound j x hx
  · intro j x hx h1 h2
    rcases hset j x hx with ⟨rfl, -⟩ | ⟨hne, hx⟩
    · rfl
    · have := others_idle es c h i (Or.inr hmu) j x hx hne
      omega
  · intro k hk
    have hk : i = k := Option.some.inj hk
    subst hk
    exact ⟨{ g with pc := 1 }, List.getElem?_set_self (List.getElem?_eq_some.1 hg).1,
      le_refl _, by show 1 ≤ 4; omega⟩
  · intro j x hx h2
    rcases hset j x hx with ⟨-, rfl⟩ | ⟨hne, hx⟩
    · simp at h2
    · exact h.assigned j x hx h2
  · show c.repo.nextID = _
    rw [h4]
    exact h.counter
  · intro k
    show k ∈ c.repo.events ↔ _
    rw [h3]
    exact h.keys k
  · exact h.idkey
  · intro j x hx h3x
    rcases hset j x hx with ⟨-, rfl⟩ | ⟨hne, hx⟩
    · simp at h3x
    · exact h.kept j x hx h3x
  · intro j x hx
    rcases hset j x hx with ⟨rfl, rfl⟩ | ⟨hne, hx⟩
    · exact h.fields j g hg
    · exact h.fields j x hx
  · show (c.gs.set i _).length = es.length
    rw [List.length_set]
    exact h.len

theorem inv_assign (es : List Event) (c : Concurrent) (h : Concurrent.Inv es c) (i : Nat)
    (g : Goroutine) (hg : c.gs[i]? = some g) (hpc : g.pc = 1) :
    Concurrent.Inv es { c with
      gs := c.gs.set i { pc := 2, event := { g.event with ID := c.repo.nextID } } } := by
  have hmu : c.mu = some i := h.excl i g hg (by omega) (by omega)
  have hset : ∀ (j : Nat) (x : Goroutine),
      (c.gs.set i { pc := 2, event := { g.event with ID := c.repo.nextID } })[j]? = some x →
        (j = i ∧ x = { pc := 2, event := { g.event with ID := c.repo.nextID } }) ∨
          (j ≠ i ∧ c.gs[j]? = some x) :=
    fun j x hx => getElem?_set_cases hg hx
  have h3 := countP_set_add (fun g => decide (3 ≤ g.pc)) c.gs i g
    { pc := 2, event := { g.event with ID := c.repo.nextID } } hg
  have h4 := countP_set_add (fun g => decide (4 ≤ g.pc)) c.gs i g
    { pc := 2, event := { g.event with ID := c.repo.nextID } } hg
  simp only [hpc, decide_eq_true_eq, show ¬ (3 ≤ 2) by omega, show ¬ (4 ≤ 2) by omega,
    show ¬ (3 ≤ 1) by omega, show ¬ (4 ≤ 1) by omega, if_false, add_zero] at h3 h4
  refine ⟨?_, ?_, ?_, ?_, ?_, ?_, ?_, ?_, ?_, ?_⟩
  · intro j x hx
    rcases hset j x hx with ⟨-, rfl⟩ | ⟨-, hx⟩
    · show 2 ≤ 5
      omega
    · exact h.bound j x hx
  · intro j x hx h1 h2
    rcases hset j x hx with ⟨rfl, -⟩ | ⟨hne, hx⟩
    · exact hmu
    · exact h.excl j x hx h1 h2
  · intro k hk
    have hk2 : c.mu = some k := hk
    rw [hmu] at hk2
    have hk3 : i = k := Option.some.inj hk2
    subst hk3
    exact ⟨_, List.getElem?_set_self (List.getElem?_eq_some.1 hg).1,
      by show 1 ≤ 2; omega, by show 2 ≤ 4; omega⟩
  · intro j x hx h2
    rcases hset j x hx with ⟨-, rfl⟩ | ⟨hne, hx⟩
    · rfl
    · exact h.assigned j x hx h2
  · show c.repo.nextID = _
    rw [h4]
    exact h.counter
  · intro k
    show k ∈ c.repo.events ↔ _
    rw [h3]
    exact h.keys k
  · exact h.idkey
  · intro j x hx h3x
    rcases hset j x hx with ⟨-, rfl⟩ | ⟨hne, hx⟩
    · simp at h3x
    · exact h.kept j x hx h3x
  · intro j x hx
    rcases hset j x hx with ⟨rfl, rfl⟩ | ⟨hne, hx⟩
    · exact h.fields j g hg
    · exact h.fields j x hx
  · show (c.gs.set i _).length = es.length
    rw [List.length_set]
    exact h.len

theorem inv_store (es : List Event) (c : Concurrent) (h : Concurrent.Inv es c) (i : Nat)
    (g : Goroutine) (hg : c.gs[i]? = some g) (hpc : g.pc = 2) :
    Concurrent.Inv es { c with
      repo := { c.repo with
        events := c.repo.events.insert g.event.ID
          { ID := g.event.ID, UserID := g.event.UserID, Date := g.event.Date,
            Text := g.event.Text } }
      gs := c.gs.set i { g with pc := 3 } } := by
  have hmu : c.mu = some i := h.excl i g hg (by omega) (by omega)
  have hid : g.event.ID = c.repo.nextID := h.assigned i g hg (Or.inl hpc)
  have hset : ∀ (j : Nat) (x : Goroutine),
      (c.gs.set i { g with pc := 3 })[j]? = some x →
        (j = i ∧ x = { g with pc := 3 }) ∨ (j ≠ i ∧ c.gs[j]? = some x) :=
    fun j x hx => getElem?_set_cases hg hx
  have h3 := countP_set_add (fun g => decide (3 ≤ g.pc)) c.gs i g { g with pc := 3 } hg
  have h4 := countP_set_add (fun g => decide (4 ≤ g.pc)) c.gs i g { g with pc := 3 } hg
  simp only [hpc, decide_eq_true_eq, show ¬ (3 ≤ 2) by omega, show ¬ (4 ≤ 2) by omega,
    show (3 ≤ 3) by omega, show ¬ (4 ≤ 3) by omega, if_false, if_true, add_zero] at h3 h4
  have h34 := count_three_eq_four es c h i g hg (by omega) (Or.inl hmu)
  have hcount := h.counter
  have hfresh : ∀ k, k ∈ c.repo.events → k ≠ g.event.ID := by
    intro k hk
    have := ((h.keys k).1 hk).2
    omega
  refine ⟨?_, ?_, ?_, ?_, ?_, ?_, ?_, ?_, ?_, ?_⟩
  · intro j x hx
    rcases hset j x hx with ⟨-, rfl⟩ | ⟨-, hx⟩
    · show 3 ≤ 5
      omega
    · exact h.bound j x hx
  · intro j x hx h1 h2
    rcases hset j x hx with ⟨rfl, -⟩ | ⟨hne, hx⟩
    · exact hmu
    · exact h.excl j x hx h1 h2
  · intro k hk
    have hk2 : c.mu = some k := hk
    rw [hmu] at hk2
    have hk3 : i = k := Option.some.inj hk2
    subst hk3
    exact ⟨_, List.getElem?_set_self (List.getElem?_eq_some.1 hg).1,
      by show 1 ≤ 3; omega, by show 3 ≤ 4; omega⟩
  · intro j x hx h2
    rcases hset j x hx with ⟨-, rfl⟩ | ⟨hne, hx⟩
    · exact hid
    · exact h.assigned j x hx h2
  · show c.repo.nextID = _
    rw [h4]
    exact h.counter
  · intro k
    show k ∈ c.repo.events.insert _ _ ↔ _
    rw [AList.mem_insert, h.keys k, h3]
    push_cast
    omega
  · intro k v hk
    have hk2 : (c.repo.events.insert g.event.ID
      { ID := g.event.ID, UserID := g.event.UserID, Date := g.event.Date,
        Text := g.event.Text }).lookup k = some v := hk
    by_cases hkg : k = g.event.ID
    · subst hkg
      rw [AList.lookup_insert] at hk2
      cases hk2
      rfl
    · rw [AList.lookup_insert_ne hkg] at hk2
      exact h.idkey k v hk2
  · intro j x hx h3x
    show (c.repo.events.insert _ _).lookup x.event.ID = _
    rcases hset j x hx with ⟨-, rfl⟩ | ⟨hne, hx⟩
    · exact AList.lookup_insert _
    · have hold := h.kept j x hx h3x
      have hmem : x.event.ID ∈ c.repo.events := by
        rw [← AList.lookup_isSome, hold]
        rfl
      rw [AList.lookup_insert_ne (hfresh _ hmem)]
      exact hold
  · intro j x hx
    rcases hset j x hx with ⟨rfl, rfl⟩ | ⟨hne, hx⟩
    · exact h.fields j g hg
    · exact h.fields j x hx
  · show (c.gs.set i _).length = es.length
    rw [List.length_set]
    exact h.len

theorem inv_bump (es : List Event) (c : Concurrent) (h : Concurrent.Inv es c) (i : Nat)
    (g : Goroutine) (hg : c.gs[i]? = some g) (hpc : g.pc = 3) :
    Concurrent.Inv es { c with
      repo := { c.repo with nextID := c.repo.nextID + 1 }
      gs := c.gs.set i { g with pc := 4 } } := by
  have hmu : c.mu = some i := h.excl i g hg (by omega) (by omega)
  have hset : ∀ (j : Nat) (x : Goroutine),
      (c.gs.set i { g with pc := 4 })[j]? = some x →
        (j = i ∧ x = { g with pc := 4 }) ∨ (j ≠ i ∧ c.gs[j]? = some x) :=
    fun j x hx => getElem?_set_cases hg hx
  have h3 := countP_set_add (fun g => decide (3 ≤ g.pc)) c.gs i g { g with pc := 4 } hg
  have h4 := countP_set_add (fun g => decide (4 ≤ g.pc)) c.gs i g { g with pc := 4 } hg
  simp only [hpc, decide_eq_true_eq, show (3 ≤ 3) by omega, show ¬ (4 ≤ 3) by omega,
    show (3 ≤ 4) by omega, show (4 ≤ 4) by omega, if_false, if_true, add_zero] at h3 h4
  have hcount := h.counter
  refine ⟨?_, ?_, ?_, ?_, ?_, ?_, ?_, ?_, ?_, ?_⟩
  · intro j x hx
    rcases hset j x hx with ⟨-, rfl⟩ | ⟨-, hx⟩
    · show 4 ≤ 5
      omega
    · exact h.bound j x hx
  · intro j x hx h1 h2
    rcases hset j x hx with ⟨rfl, -⟩ | ⟨hne, hx⟩
    · exact hmu
    · exact h.excl j x hx h1 h2
  · intro k hk
    have hk2 : c.mu = some k := hk
    rw [hmu] at hk2
    have hk3 : i = k := Option.some.inj hk2
    subst hk3
    exact ⟨_, List.getElem?_set_self (List.getElem?_eq_some.1 hg).1,
      by show 1 ≤ 4; omega, by show 4 ≤ 4; omega⟩
  · intro j x hx h2
    rcases hset j x hx with ⟨-, rfl⟩ | ⟨hne, hx⟩
    · simp at h2
    · have := others_idle es c h i (Or.inl hmu) j x hx hne
      omega
  · show c.repo.nextID + 1 = _
    rw [h4, hcount]
    push_cast
    ring
  · intro k
    show k ∈ c.repo.events ↔ _
    have h3b : List.countP (fun g => decide (3 ≤ g.pc)) (c.gs.set i { g with pc := 4 }) =
        List.countP (fun g => decide (3 ≤ g.pc)) c.gs := by omega
    rw [h3b]
    exact h.keys k
  · exact h.idkey
  · intro j x hx h3x
    show c.repo.events.lookup x.event.ID = _
    rcases hset j x hx with ⟨rfl, rfl⟩ | ⟨hne, hx⟩
    · exact h.kept j g hg (by omega)
    · exact h.kept j x hx h3x
  · intro j x hx
    rcases hset j x hx with ⟨rfl, rfl⟩ | ⟨hne, hx⟩
    · exact h.fields j g hg
    · exact h.fields j x hx
  · show (c.gs.set i _).length = es.length
    rw [List.length_set]
    exact h.len

theorem inv_unlock (es : List Event) (c : Concurrent) (h : Concurrent.Inv es c) (i : Nat)
    (g : Goroutine) (hg : c.gs[i]? = some g) (hpc : g.pc = 4) :
    Concurrent.Inv es { c with mu := none, gs := c.gs.set i { g with pc := 5 } } := by
  have hmu : c.mu = some i := h.excl i g hg (by omega) (by omega)
  have hset : ∀ (j : Nat) (x : Goroutine),
      (c.gs.set i { g with pc := 5 })[j]? = some x →
        (j = i ∧ x = { g with pc := 5 }) ∨ (j ≠ i ∧ c.gs[j]? = some x) :=
    fun j x hx => getElem?_set_cases hg hx
  have h3 := countP_set_add (fun g => decide (3 ≤ g.pc)) c.gs i g { g with pc := 5 } hg
  have h4 := countP_set_add (fun g => decide (4 ≤ g.pc)) c.gs i g { g with pc := 5 } hg
  simp only [hpc, decide_eq_true_eq, show (3 ≤ 4) by omega, show (4 ≤ 4) by omega,
    show (3 ≤ 5) by omega, show (4 ≤ 5) by omega, if_true, add_left_inj] at h3 h4
  refine ⟨?_, ?_, ?_, ?_, ?_, ?_, ?_, ?_, ?_, ?_⟩
  · intro j x hx
    rcases hset j x hx with ⟨-, rfl⟩ | ⟨-, hx⟩
    · show 5 ≤ 5
      omega
    · exact h.bound j x hx
  · intro j x hx h1 h2
    rcases hset j x hx with ⟨-, rfl⟩ | ⟨hne, hx⟩
    · have h2b : 5 ≤ 4 := h2
      omega
    · have := others_idle es c h i (Or.inl hmu) j x hx hne
      omega
  · intro k hk
    cases hk
  · intro j x hx h2
    rcases hset j x hx with ⟨-, rfl⟩ | ⟨hne, hx⟩
    · simp at h2
    · exact h.assigned j x hx h2
  · show c.repo.nextID = _
    rw [h4]
    exact h.counter
  · intro k
    show k ∈ c.repo.events ↔ _
    rw [h3]
    exact h.keys k
  · exact h.idkey
  · intro j x hx h3x
    show c.repo.events.lookup x.event.ID = _
    rcases hset j x hx with ⟨rfl, rfl⟩ | ⟨hne, hx⟩
    · exact h.kept j g hg (by omega)
    · exact h.kept j x hx h3x
  · intro j x hx
    rcases hset j x hx with ⟨rfl, rfl⟩ | ⟨hne, hx⟩
    · exact h.fields j g hg
    · exact h.fields j x hx
  · show (c.gs.set i _).length = es.length
    rw [List.length_set]
    exact h.len

theorem inv_step (es : List Event) (c c1 : Concurrent) (i : Nat) (h : Concurrent.Inv es c)
    (hs : c.step i = some c1) : Concurrent.Inv es c1 := by
  obtain ⟨g, hg, hc⟩ := step_cases c c1 i hs
  rcases hc with ⟨hpc, hmu, rfl⟩ | ⟨hpc, rfl⟩ | ⟨hpc, rfl⟩ | ⟨hpc, rfl⟩ | ⟨hpc, rfl⟩
  · exact inv_lock es c h i g hg hpc hmu
  · exact inv_assign es c h i g hg hpc
  · exact inv_store es c h i g hg hpc
  · exact inv_bump es c h i g hg hpc
  · exact inv_unlock es c h i g hg hpc

theorem inv_exec (es : List Event) (sched : List Nat) : ∀ c c1 : Concurrent,
    Concurrent.Inv es c → Concurrent.exec c sched = some c1 → Concurrent.Inv es c1 := by
  induction sched with
  | nil =>
    intro c c1 h he
    simp only [Concurrent.exec, Option.some.injEq] at he
    exact he ▸ h
  | cons i sched ih =>
    intro c c1 h he
    simp only [Concurrent.exec] at he
    cases hs : c.step i with
    | none => rw [hs] at he; simp at he
    | some c2 =>
      rw [hs] at he
      exact ih c2 c1 (inv_step es c c2 i h hs) he

theorem pcSum_step (c c1 : Concurrent) (i : Nat) (hs : c.step i = some c1) :
    (c1.gs.map (fun g => g.pc)).sum = (c.gs.map (fun g => g.pc)).sum + 1 := by
  obtain ⟨g, hg, hc⟩ := step_cases c c1 i hs
  rcases hc with ⟨hpc, hmu, rfl⟩ | ⟨hpc, rfl⟩ | ⟨hpc, rfl⟩ | ⟨hpc, rfl⟩ | ⟨hpc, rfl⟩
  · have := pcSum_set c.gs i g { g with pc := 1 } hg
    simp only [hpc] at this
    simp only
    omega
  · have := pcSum_set c.gs i g { pc := 2, event := { g.event with ID := c.repo.nextID } } hg
    simp only [hpc] at this
    simp only
    omega
  · have := pcSum_set c.gs i g { g with pc := 3 } hg
    simp only [hpc] at this
    simp only
    omega
  · have := pcSum_set c.gs i g { g with pc := 4 } hg
    simp only [hpc] at this
    simp only
    omega
  · have := pcSum_set c.gs i g { g with pc := 5 } hg
    simp only [hpc] at this
    simp only
    omega

theorem pcSum_exec (sched : List Nat) : ∀ c c1 : Concurrent,
    Concurrent.exec c sched = some c1 →
      (c1.gs.map (fun g => g.pc)).sum = (c.gs.map (fun g => g.pc)).sum + sched.length := by
  induction sched with
  | nil =>
    intro c c1 he
    simp only [Concurrent.exec, Option.some.injEq] at he
    subst he
    simp
  | cons i sched ih =>
    intro c c1 he
    simp only [Concurrent.exec] at he
    cases hs : c.step i with
    | none => rw [hs] at he; simp at he
    | some c2 =>
      rw [hs] at he
      rw [ih c2 c1 he, pcSum_step c c2 i hs, List.length_cons]
      omega

theorem pcSum_start (es : List Event) :
    ((Concurrent.start es).gs.map (fun g => g.pc)).sum = 0 := by
  simp [Concurrent.start, Function.comp_def]

theorem pcSum_bound (l : List Goroutine) (h : ∀ g ∈ l, g.pc ≤ 5) :
    (l.map (fun g => g.pc)).sum ≤ 5 * l.length ∧
      ((l.map (fun g => g.pc)).sum = 5 * l.length ↔ ∀ g ∈ l, g.pc = 5) := by
  induction l with
  | nil => simp
  | cons x l ih =>
    have hx := h x (List.mem_cons_self _ _)
    obtain ⟨i1, i2⟩ := ih (fun g hg => h g (List.mem_cons_of_mem _ hg))
    simp only [List.map_cons, List.sum_cons, List.length_cons, List.mem_cons, forall_eq_or_imp]
    refine ⟨by omega, ?_⟩
    constructor
    · intro hsum
      have h1 : x.pc = 5 := by omega
      exact ⟨h1, i2.1 (by omega)⟩
    · rintro ⟨h1, h2⟩
      have := i2.2 h2
      omega

theorem step_enabled (es : List Event) (c : Concurrent) (h : Concurrent.Inv es c)
    (hnot : ∃ g ∈ c.gs, g.pc ≠ 5) : ∃ i, (c.step i).isSome = true := by
  cases hmu : c.mu with
  | some i =>
    obtain ⟨g, hg, h1, h4⟩ := h.holder i hmu
    refine ⟨i, ?_⟩
    unfold Concurrent.step
    rw [hg]
    simp only
    have hc : g.pc = 1 ∨ g.pc = 2 ∨ g.pc = 3 ∨ g.pc = 4 := by omega
    rcases hc with hc | hc | hc | hc <;> simp [hc]
  | none =>
    obtain ⟨g, hg, hpc⟩ := hnot
    obtain ⟨j, hj⟩ := List.mem_iff_getElem?.1 hg
    have hb := h.bound j g hj
    have h0 : g.pc = 0 := by
      by_contra hc
      have hx := h.excl j g hj (by omega) (by omega)
      rw [hmu] at hx
      cases hx
    refine ⟨j, ?_⟩
    unfold Concurrent.step
    rw [hj]
    simp [h0, hmu]

theorem done_store (es : List Event) (c : Concurrent) (h : Concurrent.Inv es c)
    (hdone : ∀ g ∈ c.gs, g.pc = 5) :
    c.repo.events.entries.length = es.length ∧
      (c.repo.events.entries.map (fun kv => kv.2.ID)).Nodup ∧
      (∀ k : Int, k ∈ c.repo.events ↔ 1 ≤ k ∧ k ≤ (es.length : Int)) ∧
      c.repo.nextID = 1 + (es.length : Int) ∧
      c.mu = none ∧
      (∀ (j : Nat) (e : Event), es[j]? = some e → ∃ id : Int,
        c.repo.events.lookup id =
          some { ID := id, UserID := e.UserID, Date := e.Date, Text := e.Text }) := by
  have h3 : c.gs.countP (fun g => decide (3 ≤ g.pc)) = es.length := by
    rw [← h.len, List.countP_eq_length]
    intro g hg
    have := hdone g hg
    simp only [decide_eq_true_eq]
    omega
  have h4 : c.gs.countP (fun g => decide (4 ≤ g.pc)) = es.length := by
    rw [← h.len, List.countP_eq_length]
    intro g hg
    have := hdone g hg
    simp only [decide_eq_true_eq]
    omega
  have hkeys : ∀ k : Int, k ∈ c.repo.events ↔ 1 ≤ k ∧ k ≤ (es.length : Int) := by
    intro k
    rw [h.keys k, h3]
  have hids : c.repo.events.entries.map (fun kv => kv.2.ID) = c.repo.events.keys := by
    simp only [AList.keys, List.keys]
    apply List.map_congr_left
    rintro ⟨k, v⟩ hkv
    exact h.idkey k v (AList.mem_lookup_iff.2 hkv)
  have hperm : c.repo.events.keys.Perm
      ((List.range es.length).map (fun (n : Nat) => (n : Int) + 1)) := by
    rw [List.perm_ext_iff_of_nodup c.repo.events.keys_nodup]
    · intro k
      rw [← AList.mem_keys, hkeys k, List.mem_map]
      constructor
      · rintro ⟨h1, h2⟩
        exact ⟨(k - 1).toNat, List.mem_range.2 (by omega), by omega⟩
      · rintro ⟨n, hn, rfl⟩
        have := List.mem_range.1 hn
        omega
    · apply List.Nodup.map _ (List.nodup_range _)
      intro a b hab
      simp only at hab
      omega
  refine ⟨?_, ?_, hkeys, ?_, ?_, ?_⟩
  · have := hperm.length_eq
    simp only [AList.keys, List.keys, List.length_map, List.length_range] at this
    exact this
  · rw [hids]
    exact c.repo.events.keys_nodup
  · rw [h.counter, h4]
  · cases hmu : c.mu with
    | none => rfl
    | some i =>
      obtain ⟨g, hg, h1, h4x⟩ := h.holder i hmu
      have := hdone g (List.mem_iff_getElem?.2 ⟨i, hg⟩)
      omega
  · intro j e he
    have hlt : j < c.gs.length := by
      rw [h.len]
      exact (List.getElem?_eq_some.1 he).1
    obtain ⟨g, hg⟩ : ∃ g, c.gs[j]? = some g := ⟨c.gs[j], List.getElem?_eq_getElem hlt⟩
    obtain ⟨e2, he2, f1, f2, f3⟩ := h.fields j g hg
    rw [he] at he2
    cases he2
    have hk := h.kept j g hg (by have := hdone g (List.mem_iff_getElem?.2 ⟨j, hg⟩); omega)
    rw [f1, f2, f3] at hk
    exact ⟨g.event.ID, hk⟩

/-- C21: goroutines that call `CreateEvent` concurrently on a fresh store, one
per event of `es` (10 of them in particular), whatever the interleaving
`sched` of their statements: at most one goroutine is between `Lock` and
`Unlock`; as long as one has not returned some goroutine can take a step, and
all have returned after exactly 5 steps each.  When all have returned the
store holds exactly as many events as there were callers, under the
identifiers 1 to that number, no two with the same `ID`, and for every caller
a record with its user id, date and text.  The statements of a goroutine are
taken as atomic and `r.mu` as a lock that one goroutine holds at a time. -/
theorem concurrent_creates_keep_every_event (es : List Event) (sched : List Nat)
    (c : Concurrent) (hexec : Concurrent.exec (Concurrent.start es) sched = some c) :
    ((∀ g ∈ c.gs, g.pc = 5) →
      c.repo.events.entries.length = es.length ∧
      (c.repo.events.entries.map (fun kv => kv.2.ID)).Nodup ∧
      (∀ k : Int, k ∈ c.repo.events ↔ 1 ≤ k ∧ k ≤ (es.length : Int)) ∧
      c.repo.nextID = 1 + (es.length : Int) ∧
      c.mu = none ∧
      (∀ (j : Nat) (e : Event), es[j]? = some e → ∃ id : Int,
        c.repo.events.lookup id =
          some { ID := id, UserID := e.UserID, Date := e.Date, Text := e.Text })) ∧
    (∀ (j1 j2 : Nat) (g1 g2 : Goroutine), c.gs[j1]? = some g1 → c.gs[j2]? = some g2 →
      1 ≤ g1.pc → g1.pc ≤ 4 → 1 ≤ g2.pc → g2.pc ≤ 4 → j1 = j2) ∧
    ((∃ g ∈ c.gs, g.pc ≠ 5) → ∃ i, (c.step i).isSome = true) ∧
    sched.length ≤ 5 * es.length ∧
    (sched.length = 5 * es.length ↔ ∀ g ∈ c.gs, g.pc = 5) := by
  have hinv := inv_exec es sched _ c (inv_start es) hexec
  have hsum := pcSum_exec sched _ c hexec
  rw [pcSum_start, zero_add] at hsum
  have hb := pcSum_bound c.gs
    (fun g hg => by
      obtain ⟨j, hj⟩ := List.mem_iff_getElem?.1 hg
      exact hinv.bound j g hj)
  rw [hsum, hinv.len] at hb
  refine ⟨done_store es c hinv, ?_, step_enabled es c hinv, hb.1, hb.2⟩
  intro j1 j2 g1 g2 h1 h2 a1 a2 b1 b2
  have e1 := hinv.excl j1 g1 h1 a1 a2
  have e2 := hinv.excl j2 g2 h2 b1 b2
  rw [e1] at e2
  exact Option.some.inj e2

theorem concurrent_creates_keep_every_event_witness :
    Concurrent.exec (Concurrent.start [sampleEvent, laterEvent])
        [1, 1, 1, 1, 1, 0, 0, 0, 0, 0] = some afterTwoCallers ∧
      afterTwoCallers.repo.events.entries.length = 2 ∧
      [1, 1, 1, 1, 1, 0, 0, 0, 0, 0].length ≤ 5 * [sampleEvent, laterEvent].length :=
  ⟨rfl,
    ((concurrent_creates_keep_every_event [sampleEvent, laterEvent]
      [1, 1, 1, 1, 1, 0, 0, 0, 0, 0] afterTwoCallers rfl).1 (by decide)).1,
    (concurrent_creates_keep_every_event [sampleEvent, laterEvent]
      [1, 1, 1, 1, 1, 0, 0, 0, 0, 0] afterTwoCallers rfl).2.2.2.1⟩

end L218
